import Mathlib

/-!
Verification of the xmag pipeline (text sanitization, block classification,
inline-markup rendering, URL handling and document assembly) against its
natural-language specification.  Python sources are shallowly embedded:
strings are `String`/`List Char`, fallible code returns `Except String`,
and CPython library behaviour (urllib parsing/quoting, pathlib suffixes)
is modelled by executable Lean functions on the relevant input domain.
-/

namespace Xmag

/-! ## Generic character and list helpers -/

/-- ASCII decimal digit test (`0`-`9`), as used by the embedded scanners. -/
def isAsciiDigit (c : Char) : Bool :=
  '0' ≤ c ∧ c ≤ '9'

/-- ASCII letter test. -/
def isAsciiAlpha (c : Char) : Bool :=
  ('a' ≤ c ∧ c ≤ 'z') ∨ ('A' ≤ c ∧ c ≤ 'Z')

/-- ASCII lower-casing of one character (models `str.lower` on ASCII data). -/
def asciiLowerChar (c : Char) : Char :=
  if 'A' ≤ c ∧ c ≤ 'Z' then Char.ofNat (c.toNat + 32) else c

/-- ASCII lower-casing of a string. -/
def asciiLower (s : String) : String :=
  String.mk (s.data.map asciiLowerChar)

/-- Python whitespace characters recognised by `str.strip` on ASCII data. -/
def isPySpace (c : Char) : Bool :=
  c = ' ' ∨ c = '\t' ∨ c = '\n' ∨ c = '\r' ∨ c = '\x0b' ∨ c = '\x0c'

/-- Strip characters satisfying `p` from both ends of a character list. -/
def stripWhile (p : Char → Bool) (l : List Char) : List Char :=
  ((l.dropWhile p).reverse.dropWhile p).reverse

/-- Models Python `str.strip()` (ASCII whitespace). -/
def pyStrip (s : String) : String :=
  String.mk (stripWhile isPySpace s.data)

/-- Models Python `str.split(sep)` for a one-character separator:
splitting `[]` yields `[[]]`, and separators are not kept. -/
def splitOnChar (sep : Char) : List Char → List (List Char)
  | [] => [[]]
  | c :: cs =>
    let r := splitOnChar sep cs
    if c = sep then [] :: r
    else
      match r with
      | s :: ss => (c :: s) :: ss
      | [] => [[c]]

/-- First index of a character satisfying `p`, or `none`. -/
def findCharIdx (p : Char → Bool) : List Char → Option Nat
  | [] => none
  | c :: cs =>
    if p c then some 0
    else
      match findCharIdx p cs with
      | some i => some (i + 1)
      | none => none

/-! ## `renderer.py`: LaTeX escaping (`_LATEX_ESCAPE_MAP`, `latex_escape`) -/

/-- Embeds `_LATEX_ESCAPE_MAP.get(char, char)`: the replacement text for one
character.  Characters outside the ten-entry map are returned unchanged.
Literal braces inside the replacement strings are written `\x7b`/`\x7d`. -/
def latexEscapeChar (c : Char) : List Char :=
  if c = '\\' then "\\textbackslash\x7b\x7d".data
  else if c = '&' then "\\&".data
  else if c = '%' then "\\%".data
  else if c = '$' then "\\$".data
  else if c = '#' then "\\#".data
  else if c = '_' then "\\_".data
  else if c = '{' then "\\\x7b".data
  else if c = '}' then "\\\x7d".data
  else if c = '~' then "\\textasciitilde\x7b\x7d".data
  else if c = '^' then "\\textasciicircum\x7b\x7d".data
  else [c]

/-- The domain of `_LATEX_ESCAPE_MAP`. -/
def latexSpecialChars : List Char :=
  ['\\', '&', '%', '$', '#', '_', '{', '}', '~', '^']

/-- Embeds `latex_escape`: one pass over the raw characters, joining the
per-character replacements (embeds
`"".join(_LATEX_ESCAPE_MAP.get(char, char) for char in value)`). -/
def latex_escape (value : String) : String :=
  String.mk (value.data.flatMap latexEscapeChar)

/-- The five characters the spec's completeness example probes. -/
def probedSpecials : List Char :=
  ['%', '#', '_', '$', '&']

/-- Scans a character list and checks that none of the five probed LaTeX
specials occurs unescaped, i.e. every occurrence is directly preceded by a
backslash (the character right after a backslash is consumed as escaped). -/
def noBareProbedSpecial : List Char → Bool
  | [] => true
  | ['\\'] => true
  | '\\' :: _ :: rest2 => noBareProbedSpecial rest2
  | c :: rest => !(probedSpecials.contains c) && noBareProbedSpecial rest

/-! ## `renderer.py`: issue assembly (`render_issue_tex` pagination loop) -/

/-- Pagination modes from `config.py`. -/
inductive PaginationMode where
  | continuous
  | newpage
  | split
deriving DecidableEq, Repr

/-- The body-block accumulation loop of `render_issue_tex`.  `index` is the
1-based position of the current body (Python `enumerate(contents, start=1)`);
the `index < len(contents)` test is expressed as "more bodies remain". -/
def renderIssueGo (pagination : PaginationMode) : Nat → List String → List String
  | _, [] => []
  | index, body :: rest =>
    body ::
      (if pagination = PaginationMode.newpage ∧ rest ≠ [] then
        "\\newpage" :: renderIssueGo pagination (index + 1) rest
      else renderIssueGo pagination (index + 1) rest)

/-- The body-block list built by `render_issue_tex`: each article's rendered
body block and, when `pagination == NEWPAGE` and the article is not the last
one, a `\newpage` marker right after it. -/
def renderIssueBlocks (bodies : List String) (pagination : PaginationMode) : List String :=
  renderIssueGo pagination 1 bodies

/-! ## `renderer.py`: inline image interleaving (`_render_inline_flow`) -/

/-- The part-accumulation loop of `_render_inline_flow`, at the level of the
`parts` list.  `blocks` are the rendered content blocks, `images` the
rendered image fragments (`_render_single_inline_image` output), consumed in
order.  After block 1 and after every even-indexed block one image is
inserted while images remain; leftover images are appended at the end. -/
def inlineFlowGo : Nat → List String → List String → List String
  | _, [], images => images
  | blockIndex, block :: rest, images =>
    if (blockIndex = 1 ∨ blockIndex % 2 = 0) then
      match images with
      | img :: imgs => block :: img :: inlineFlowGo (blockIndex + 1) rest imgs
      | [] => block :: inlineFlowGo (blockIndex + 1) rest []
    else block :: inlineFlowGo (blockIndex + 1) rest images

/-- Embeds `_render_inline_flow` at the parts level (`block_index` starts at 1). -/
def inlineFlowParts (contentBlocks : List String) (images : List String) : List String :=
  inlineFlowGo 1 contentBlocks images

/-! ## `config.py`: `LayoutConfig` validation -/

/-- Paper sizes from `config.py`. -/
inductive PaperSize where
  | a4
  | letter
deriving DecidableEq, Repr

/-- Image layout modes from `config.py`. -/
inductive ImageLayoutMode where
  | span
  | inline
  | appendix
deriving DecidableEq, Repr

/-- The validated `LayoutConfig` model.  Margin/gap fields are rationals:
the Python floats only ever meet exact order comparisons (`> 0`, `<`). -/
structure LayoutConfig where
  paper : PaperSize
  columns : Int
  outer_margin_mm : ℚ
  inner_margin_mm : ℚ
  top_margin_mm : ℚ
  bottom_margin_mm : ℚ
  column_gap_mm : ℚ
  pagination : PaginationMode
  image_layout : ImageLayoutMode
  blank_first_page : Bool
  include_index_page : Bool
deriving DecidableEq, Repr

/-- Construction of a `LayoutConfig`: pydantic first enforces the per-field
bounds (`columns` with `ge=1, le=6`, the four margins and the column gap
with `gt=0`), then the `model_validator` rejects
`inner_margin_mm < outer_margin_mm`. -/
def mkLayoutConfig (paper : PaperSize) (columns : Int)
    (outer_margin_mm inner_margin_mm top_margin_mm bottom_margin_mm column_gap_mm : ℚ)
    (pagination : PaginationMode) (image_layout : ImageLayoutMode)
    (blank_first_page include_index_page : Bool) : Except String LayoutConfig :=
  if ¬(1 ≤ columns ∧ columns ≤ 6) then
    Except.error "columns must be in [1, 6]"
  else if ¬(0 < outer_margin_mm) then
    Except.error "outer_margin_mm must be > 0"
  else if ¬(0 < inner_margin_mm) then
    Except.error "inner_margin_mm must be > 0"
  else if ¬(0 < top_margin_mm) then
    Except.error "top_margin_mm must be > 0"
  else if ¬(0 < bottom_margin_mm) then
    Except.error "bottom_margin_mm must be > 0"
  else if ¬(0 < column_gap_mm) then
    Except.error "column_gap_mm must be > 0"
  else if inner_margin_mm < outer_margin_mm then
    Except.error "inner_margin_mm should be >= outer_margin_mm for two-sided layout"
  else
    Except.ok
      { paper := paper, columns := columns, outer_margin_mm := outer_margin_mm
        inner_margin_mm := inner_margin_mm, top_margin_mm := top_margin_mm
        bottom_margin_mm := bottom_margin_mm, column_gap_mm := column_gap_mm
        pagination := pagination, image_layout := image_layout
        blank_first_page := blank_first_page, include_index_page := include_index_page }

/-! ## `input.py`: status-id extraction (`parse_status_id`) -/

/-- Python `str.isdigit` restricted to ASCII digits (the status ids the code
handles are ASCII): nonempty and all characters `0`-`9`. -/
def pyIsDigit (s : String) : Bool :=
  !s.data.isEmpty && s.data.all isAsciiDigit

/-- Embeds `_ALLOWED_HOSTS` from `input.py`. -/
def allowedHosts : List String :=
  ["x.com", "www.x.com", "twitter.com", "www.twitter.com"]

/-- The scan loop of `parse_status_id` over the non-empty path segments:
at the first segment equal to `"status"` that has a successor, return the
successor when it is all digits, else fail; a trailing `"status"` with no
successor does not match and the scan continues to the final failure. -/
def findStatusId : List String → Except String String
  | [] => Except.error "Could not find /status/<id> in URL"
  | p :: rest =>
    if p = "status" then
      match rest with
      | next :: _ =>
        if pyIsDigit next then Except.ok next
        else Except.error "Status id is not numeric"
      | [] => Except.error "Could not find /status/<id> in URL"
    else findStatusId rest

/-- Embeds `[part for part in parsed.path.split("/") if part]`: the non-empty
`/`-separated segments of a URL path. -/
def pathParts (path : String) : List String :=
  ((splitOnChar '/' path.data).filter (fun seg => seg ≠ [])).map String.mk

/-- The body of `parse_status_id` after `urlparse`: scheme whitelist, host
whitelist (case-insensitive), then the segment scan.  `scheme` and `netloc`
are the components `urlparse` returns (`urlparse` lower-cases the scheme). -/
def parse_status_id_parts (scheme netloc path : String) : Except String String :=
  if ¬(scheme = "http" ∨ scheme = "https") then
    Except.error "Unsupported URL scheme"
  else if ¬(allowedHosts.contains (asciiLower netloc)) then
    Except.error "Unsupported host. Expected x.com or twitter.com"
  else findStatusId (pathParts path)

/-- Decidable test: does the segment list contain an adjacent pair
`"status"`, `<all digits>` anywhere? -/
def hasStatusDigitPair : List String → Bool
  | p :: next :: rest => (p = "status" && pyIsDigit next) || hasStatusDigitPair (next :: rest)
  | _ => false


/-! ## `extractor.py`: text sanitizer line processing (`_sanitize_text`) -/

/-- Models Python `str.rstrip()` (ASCII whitespace). -/
def pyRstrip (s : String) : String :=
  String.mk (s.data.reverse.dropWhile isPySpace).reverse

/-- Models Python `str.splitlines()` for newline-terminated text: split on
`\n`, without a trailing empty segment for a trailing newline (the rarer
terminators `\r`, `\v`, ... are outside the modelled input domain). -/
def pySplitlinesNL (s : String) : List String :=
  let segs := splitOnChar '\n' s.data
  let segs2 :=
    if s.data = [] then []
    else if segs.getLast? = some [] then segs.dropLast
    else segs
  segs2.map String.mk

/-- One of the three upper/lower-case letters `K`/`M`/`B`/`T` (the
`IGNORECASE` metric suffixes). -/
def isKMBTChar (c : Char) : Bool :=
  let d := asciiLowerChar c
  d = 'k' ∨ d = 'm' ∨ d = 'b' ∨ d = 't'

/-- A character of the `[\d,.]` class of `_METRIC_LINE_RE`. -/
def isMetricChar (c : Char) : Bool :=
  isAsciiDigit c ∨ c = ',' ∨ c = '.'

/-- Embeds `_METRIC_LINE_RE.fullmatch`: `^[\d,.]+(?:[KMBT]|[KMBT]\+)?$` with
`IGNORECASE` — a non-empty run of digits/commas/periods, optionally
followed by one metric suffix letter, optionally followed by `+`. -/
def matchMetricLine (l : List Char) : Bool :=
  let num := l.takeWhile isMetricChar
  let rest := l.dropWhile isMetricChar
  !num.isEmpty &&
    (match rest with
     | [] => true
     | [c] => isKMBTChar c
     | [c, p] => isKMBTChar c && p = '+'
     | _ => false)

/-- The `Read\s+\d+\s+replies` alternative of `_STOP_AT_LINE_RE`, applied
to an already lower-cased full line (the `^...$` anchors make it a full
match; the greedy runs are deterministic as the character classes are
disjoint from what follows them). -/
def matchReadReplies (l : List Char) : Bool :=
  if l.take 4 = ['r', 'e', 'a', 'd'] then
    let r1 := l.drop 4
    let sp1 := r1.takeWhile isPySpace
    let r2 := r1.dropWhile isPySpace
    let dg := r2.takeWhile isAsciiDigit
    let r3 := r2.dropWhile isAsciiDigit
    let sp2 := r3.takeWhile isPySpace
    let r4 := r3.dropWhile isPySpace
    !sp1.isEmpty && !dg.isEmpty && !sp2.isEmpty && r4 = ['r', 'e', 'p', 'l', 'i', 'e', 's']
  else false

/-- Embeds `_STOP_AT_LINE_RE.match` on a stripped line: one of the two fixed
boilerplate phrases (case-insensitive) or the read-replies pattern. -/
def isStopLine (s : String) : Bool :=
  let t := asciiLower s
  t = "want to publish your own article?" ∨ t = "upgrade to premium" ∨
    matchReadReplies t.data

/-- The `(AM|PM)` alternative (case-insensitive): consumes two characters. -/
def matchAmPm : List Char → Option (List Char)
  | a :: m :: rest =>
    if (asciiLowerChar a = 'a' ∨ asciiLowerChar a = 'p') ∧ asciiLowerChar m = 'm' then
      some rest
    else none
  | _ => none

/-- Embeds `_TIMESTAMP_LINE_RE.match`: prefix match of
`^\d{1,2}:\d{2}\s?(AM|PM)\s*·` (case-insensitive).  `\d{1,2}` is a
maximal run of at most two digits followed by `:`; `\s?` consumes one
optional whitespace; trailing input after `·` is irrelevant (prefix match).
-/
def matchTimestampLine (l : List Char) : Bool :=
  let ds := l.takeWhile isAsciiDigit
  let r1 := l.dropWhile isAsciiDigit
  (ds.length = 1 ∨ ds.length = 2) &&
    (match r1 with
     | ':' :: m1 :: m2 :: r2 =>
       isAsciiDigit m1 && isAsciiDigit m2 &&
         (let r3 := if r2 ≠ [] ∧ isPySpace r2.head! then r2.tail else r2
          match matchAmPm r3 with
          | some r4 => (r4.dropWhile isPySpace).head? = some '·'
          | none => false)
     | _ => false)

/-- The per-line scan of `_sanitize_text` (source lines 93-116): blank lines
are kept (as empty lines), a boilerplate stop line, a compact timestamp
line, a bare `"Views"` line and a bare middot line all `break` (truncate),
author-repeat lines and pure metric lines are skipped (`continue`),
anything else is kept stripped.  `nameNorm`/`handleNorm` are the
lower-cased stripped author name and handle. -/
def sanitizeLoop (nameNorm handleNorm : String) : List String → List String
  | [] => []
  | line :: rest =>
    let stripped := pyStrip line
    if stripped = "" then "" :: sanitizeLoop nameNorm handleNorm rest
    else if isStopLine stripped || matchTimestampLine stripped.data then []
    else if stripped = "Views" ∨ stripped = "·" then []
    else if asciiLower stripped = nameNorm ∨ asciiLower stripped = handleNorm ∨
        asciiLower stripped = pyStrip (nameNorm ++ " " ++ handleNorm) then
      sanitizeLoop nameNorm handleNorm rest
    else if matchMetricLine stripped.data then sanitizeLoop nameNorm handleNorm rest
    else stripped :: sanitizeLoop nameNorm handleNorm rest

/-- The blank-collapsing pass of `_sanitize_text` (source lines 119-126):
drop a blank line directly following a blank line. -/
def collapseBlanks : List String → Bool → List String
  | [], _ => []
  | line :: rest, prevBlank =>
    if line = "" ∧ prevBlank then collapseBlanks rest prevBlank
    else line :: collapseBlanks rest (line = "")

/-- Embeds the `"\n".join` over a list of lines. -/
def joinLines : List String → List Char
  | [] => []
  | [l] => l.data
  | l :: l2 :: rest => l.data ++ '\n' :: joinLines (l2 :: rest)

/-- The line-processing stage of `_sanitize_text` (source lines 87-128),
applied to the text after the upstream regex substitutions (artifact
blanking and author-prefix stripping, identity on inputs without those
patterns): split into lines, right-strip each, run the per-line scan with
the normalised author name/handle, collapse blank runs, join and strip. -/
def sanitize_text_lines (source author_name author_handle : String) : String :=
  let lines := (pySplitlinesNL source).map pyRstrip
  let nameNorm := asciiLower (pyStrip author_name)
  let handleNorm := asciiLower (pyStrip author_handle)
  let cleaned := sanitizeLoop nameNorm handleNorm lines
  let collapsed := collapseBlanks cleaned false
  pyStrip (String.mk (joinLines collapsed))


/-! ## `renderer.py`: inline markup rendering (`_render_inline_markup`) -/

/-- Escaping a whole character list (the `latex_escape` core). -/
def latexEscapeList (l : List Char) : List Char :=
  l.flatMap latexEscapeChar

/-- The backtick character (code point 96). -/
def backtickChar : Char :=
  Char.ofNat 96

/-- The `\[([^\]]+)\]\((https?://[^)\s]+)\)` alternative of
`_INLINE_MARKUP_RE` at the current position: returns link text, url and the
remaining input.  The greedy character-class runs are deterministic because
each class excludes the character required right after it. -/
def matchLink : List Char → Option (List Char × List Char × List Char)
  | [] => none
  | c :: r1 =>
    if c = '[' then
      let text := r1.takeWhile (fun d => d ≠ ']')
      let r2 := r1.dropWhile (fun d => d ≠ ']')
      if text.isEmpty then none
      else
        match r2 with
        | ']' :: '(' :: r3 =>
          let scheme :=
            if r3.take 8 = "https://".data then some (("https://".data, r3.drop 8))
            else if r3.take 7 = "http://".data then some (("http://".data, r3.drop 7))
            else none
          match scheme with
          | some (pre, r4) =>
            let body := r4.takeWhile (fun d => ¬(d = ')' ∨ isPySpace d))
            let r5 := r4.dropWhile (fun d => ¬(d = ')' ∨ isPySpace d))
            if body.isEmpty then none
            else
              match r5 with
              | ')' :: r6 => some (text, pre ++ body, r6)
              | _ => none
          | none => none
        | _ => none
    else none

/-- The `\*\*([^*]+)\*\*` alternative at the current position. -/
def matchBold : List Char → Option (List Char × List Char)
  | c1 :: c2 :: r1 =>
    if c1 = '*' ∧ c2 = '*' then
      let text := r1.takeWhile (fun d => d ≠ '*')
      let r2 := r1.dropWhile (fun d => d ≠ '*')
      if text.isEmpty then none
      else
        match r2 with
        | '*' :: '*' :: rest => some (text, rest)
        | _ => none
    else none
  | _ => none

/-- The inline-code alternative (backtick-delimited) at the current
position. -/
def matchCode : List Char → Option (List Char × List Char)
  | [] => none
  | c :: r1 =>
    if c = backtickChar then
      let text := r1.takeWhile (fun d => d ≠ backtickChar)
      let r2 := r1.dropWhile (fun d => d ≠ backtickChar)
      if text.isEmpty then none
      else
        match r2 with
        | _ :: rest => some (text, rest)
        | [] => none
    else none

/-- The `\*([^*]+)\*` alternative at the current position. -/
def matchItalic : List Char → Option (List Char × List Char)
  | [] => none
  | c :: r1 =>
    if c = '*' then
      let text := r1.takeWhile (fun d => d ≠ '*')
      let r2 := r1.dropWhile (fun d => d ≠ '*')
      if text.isEmpty then none
      else
        match r2 with
        | _ :: rest => some (text, rest)
        | [] => none
    else none

/-- The left-to-right scan of `_render_inline_markup`: at each position the
first matching form wins, in the alternation order of `_INLINE_MARKUP_RE`
(link, bold, inline code, italic); the substituted output is emitted and
scanning resumes after the match; an unmatched character is escaped and the
scan moves one position.  `fuel` only bounds the recursion (one unit per
consumed character suffices); `render_inline_markup` supplies the input
length. -/
def renderInlineGoF : Nat → List Char → List Char
  | _, [] => []
  | 0, _ :: _ => []
  | fuel + 1, c :: rest =>
    match matchLink (c :: rest) with
    | some (text, url, r) =>
      "\\href\x7b".data ++ url ++ "\x7d\x7b".data ++ latexEscapeList text ++
        "\x7d".data ++ renderInlineGoF fuel r
    | none =>
      match matchBold (c :: rest) with
      | some (text, r) =>
        "\\textbf\x7b".data ++ latexEscapeList text ++ "\x7d".data ++
          renderInlineGoF fuel r
      | none =>
        match matchCode (c :: rest) with
        | some (text, r) =>
          "\\texttt\x7b".data ++ latexEscapeList text ++ "\x7d".data ++
            renderInlineGoF fuel r
        | none =>
          match matchItalic (c :: rest) with
          | some (text, r) =>
            "\\emph\x7b".data ++ latexEscapeList text ++ "\x7d".data ++
              renderInlineGoF fuel r
          | none => latexEscapeChar c ++ renderInlineGoF fuel rest

/-- Embeds `_render_inline_markup`: scan with enough fuel for the whole input. -/
def render_inline_markup (value : String) : String :=
  String.mk (renderInlineGoF value.data.length value.data)


/-! ## CPython `urllib.parse` model: percent-quoting (`quote_plus`), UTF-8 -/

/-- The characters `urllib.parse.quote` never escapes (letters, digits,
`_.-~`); `urlencode` uses `quote_plus` with an empty extra-safe set. -/
def urlSafeChar (c : Char) : Bool :=
  isAsciiAlpha c ∨ isAsciiDigit c ∨ c = '_' ∨ c = '.' ∨ c = '-' ∨ c = '~'

/-- Upper-case hexadecimal digit for a value below 16. -/
def hexDigitU (n : Nat) : Char :=
  if n < 10 then Char.ofNat (48 + n) else Char.ofNat (55 + n)

/-- Value of a hexadecimal digit character (either case), else `none`. -/
def hexVal (c : Char) : Option Nat :=
  if isAsciiDigit c then some (c.toNat - 48)
  else if 'a' ≤ c ∧ c ≤ 'f' then some (c.toNat - 87)
  else if 'A' ≤ c ∧ c ≤ 'F' then some (c.toNat - 55)
  else none

/-- Standard UTF-8 encoding of one character (1-4 bytes). -/
def utf8EncodeChar (c : Char) : List Nat :=
  let n := c.toNat
  if n < 0x80 then [n]
  else if n < 0x800 then [0xC0 + n / 0x40, 0x80 + n % 0x40]
  else if n < 0x10000 then
    [0xE0 + n / 0x1000, 0x80 + n / 0x40 % 0x40, 0x80 + n % 0x40]
  else
    [0xF0 + n / 0x40000, 0x80 + n / 0x1000 % 0x40, 0x80 + n / 0x40 % 0x40,
      0x80 + n % 0x40]

/-- Percent-escape of one byte, upper-case hex (as CPython `quote`). -/
def pctEncodeByte (b : Nat) : List Char :=
  ['%', hexDigitU (b / 16), hexDigitU (b % 16)]

/-- Embeds `quote_plus` on one character: safe characters pass through, a
space becomes `+`, anything else is percent-escaped byte-wise (UTF-8). -/
def quotePlusChar (c : Char) : List Char :=
  if urlSafeChar c then [c]
  else if c = ' ' then ['+']
  else (utf8EncodeChar c).flatMap pctEncodeByte

/-- Embeds `urllib.parse.quote_plus`. -/
def quote_plus (s : String) : String :=
  String.mk (s.data.flatMap quotePlusChar)

/-- The Unicode replacement character used by `errors="replace"` decoding. -/
def replacementChar : Char :=
  Char.ofNat 0xFFFD

/-- Incremental UTF-8 decoding: handle a lead byte.  Returns emitted
characters and the continuation state `(bytes still needed, accumulator)`.
Stray continuation bytes and invalid leads emit a replacement character
(CPython replaces malformed subsequences; the exact replacement count on
malformed input is immaterial to the verified properties). -/
def utf8Lead (b : Nat) : List Char × Option (Nat × Nat) :=
  if b < 0x80 then ([Char.ofNat b], none)
  else if b < 0xC2 then ([replacementChar], none)
  else if b < 0xE0 then ([], some (1, b - 0xC0))
  else if b < 0xF0 then ([], some (2, b - 0xE0))
  else if b < 0xF5 then ([], some (3, b - 0xF0))
  else ([replacementChar], none)

/-- A scalar value encodable by a 2-4 byte UTF-8 sequence. -/
def validCodepoint (n : Nat) : Bool :=
  0x80 ≤ n ∧ (n < 0xD800 ∨ 0xE000 ≤ n) ∧ n < 0x110000

/-- Incremental UTF-8 decoding: one byte against the current state. -/
def utf8Step : Option (Nat × Nat) → Nat → List Char × Option (Nat × Nat)
  | none, b => utf8Lead b
  | some (need, acc), b =>
    if 0x80 ≤ b ∧ b < 0xC0 then
      let acc2 := acc * 0x40 + (b - 0x80)
      match need with
      | 1 =>
        if validCodepoint acc2 then ([Char.ofNat acc2], none)
        else ([replacementChar], none)
      | _ => ([], some (need - 1, acc2))
    else
      let s := utf8Lead b
      (replacementChar :: s.1, s.2)

/-- End of input: an unfinished sequence yields a replacement character. -/
def utf8Flush : Option (Nat × Nat) → List Char
  | none => []
  | some _ => [replacementChar]

/-- Run the UTF-8 decoder over a byte list. -/
def utf8Run : List Nat → Option (Nat × Nat) → List Char × Option (Nat × Nat)
  | [], st => ([], st)
  | b :: bs, st =>
    let s := utf8Step st b
    let r := utf8Run bs s.2
    (s.1 ++ r.1, r.2)

/-! ## CPython `urllib.parse` model: unquoting (`unquote_plus`) -/

/-- One token of the percent-decoding scan: a decoded byte or a literal
character. -/
inductive PctItem where
  | byte (b : Nat)
  | lit (c : Char)
deriving DecidableEq, Repr

/-- Items of one `%`-led split segment: a leading pair of hex digits is a
byte (rest literal), otherwise the `%` itself is literal (CPython appends
`%` + segment on an invalid escape). -/
def pctSegItems (seg : List Char) : List PctItem :=
  match seg with
  | h1 :: h2 :: rest =>
    match hexVal h1, hexVal h2 with
    | some v1, some v2 => PctItem.byte (16 * v1 + v2) :: rest.map PctItem.lit
    | _, _ => PctItem.lit '%' :: seg.map PctItem.lit
  | _ => PctItem.lit '%' :: seg.map PctItem.lit

/-- Item stream of a full input split on `%` (CPython `unquote` splits on
`%` and treats the first segment literally). -/
def pctItems : List (List Char) → List PctItem
  | [] => []
  | seg0 :: segs => seg0.map PctItem.lit ++ segs.flatMap pctSegItems

/-- Decode an item stream: bytes feed the incremental UTF-8 decoder,
literal characters flush it and pass through. -/
def decodeItems : List PctItem → Option (Nat × Nat) → List Char
  | [], st => utf8Flush st
  | PctItem.byte b :: rest, st =>
    let s := utf8Step st b
    s.1 ++ decodeItems rest s.2
  | PctItem.lit c :: rest, st => utf8Flush st ++ c :: decodeItems rest none

/-- Embeds `urllib.parse.unquote_plus`: `+` becomes a space, then
percent-escapes are decoded (UTF-8, replacement on error). -/
def unquote_plus (s : String) : String :=
  String.mk
    (decodeItems
      (pctItems (splitOnChar '%' (s.data.map (fun c => if c = '+' then ' ' else c))))
      none)

/-! ## CPython `urllib.parse` model: `parse_qs` lookup -/

/-- Embeds `parse_qsl(qs)` with default arguments: split on `&`, keep only
pairs with an `=` and a non-empty raw value, unquote names and values. -/
def parseQsPairs (qs : String) : List (String × String) :=
  (splitOnChar '&' qs.data).filterMap (fun pair =>
    match findCharIdx (fun c => c = '=') pair with
    | none => none
    | some i =>
      let value := pair.drop (i + 1)
      if value.isEmpty then none
      else some (unquote_plus (String.mk (pair.take i)), unquote_plus (String.mk value)))

/-- Embeds `parse_qs(qs).get(key, [""])[0]`: the first non-blank value for
`key`, else the empty string. -/
def parseQsGetFirst (qs key : String) : String :=
  match (parseQsPairs qs).filter (fun p => p.1 = key) with
  | [] => ""
  | p :: _ => p.2

/-! ## CPython `pathlib` model: `Path(path).suffix.lstrip(".")` -/

/-- Embeds `PurePosixPath(path).name`: the last path component, with empty
and `.` components dropped. -/
def pathLastName (path : String) : List Char :=
  (((splitOnChar '/' path.data).filter
    (fun seg => ¬(seg = [] ∨ seg = ['.']))).getLast?).getD []

/-- Embeds `Path(parsed.path).suffix.lstrip(".")`: the extension after the
last dot of the name (only when that dot is neither first nor last), with
leading dots stripped. -/
def pathSuffixStripped (path : String) : String :=
  let name := pathLastName path
  let suffix :=
    match findCharIdx (fun c => c = '.') name.reverse with
    | none => ([] : List Char)
    | some j =>
      let i := name.length - 1 - j
      if 0 < i ∧ i < name.length - 1 then name.drop i else []
  String.mk (suffix.dropWhile (fun c => c = '.'))

/-! ## CPython `urllib.parse` model: `urlsplit` / `urlparse` / `urlunparse` -/

/-- Characters allowed in a URL scheme after the first (letters, digits,
`+`, `-`, `.`). -/
def schemeChars (c : Char) : Bool :=
  isAsciiAlpha c ∨ isAsciiDigit c ∨ c = '+' ∨ c = '-' ∨ c = '.'

/-- A character ending the netloc (`/`, `?` or `#`). -/
def isNetlocDelim (c : Char) : Bool :=
  c = '/' ∨ c = '?' ∨ c = '#'

/-- CPython `urlsplit` raises `Invalid IPv6 URL` on a netloc with an
unbalanced bracket; this is the acceptance test. -/
def netlocBracketsOk (netloc : List Char) : Bool :=
  !((netloc.contains '[' && !netloc.contains ']') ||
    (netloc.contains ']' && !netloc.contains '['))

/-- CPython `urlsplit` first strips C0-control/space characters from the
left end only (trailing space is deliberately preserved) and removes every
tab, carriage return and line feed. -/
def stripControlAndRemove (l : List Char) : List Char :=
  (l.dropWhile (fun c => c.toNat ≤ 0x20)).filter
    (fun c => ¬(c = '\t' ∨ c = '\r' ∨ c = '\n'))

/-- Scheme recognition of `urlsplit`: the text before the first `:` when it
is non-empty, starts with a letter and is all scheme characters; the scheme
is lower-cased. -/
def splitScheme (l : List Char) : Option (List Char × List Char) :=
  match findCharIdx (fun c => c = ':') l with
  | none => none
  | some i =>
    let pre := l.take i
    if 0 < i ∧ (match pre with
        | c0 :: _ => isAsciiAlpha c0
        | [] => false) = true ∧ pre.all schemeChars then
      some (pre.map asciiLowerChar, l.drop (i + 1))
    else none

/-- Split at the first character equal to `sep`: the part before it and,
when present, the part after it. -/
def splitFirstChar (sep : Char) (l : List Char) : List Char × Option (List Char) :=
  match findCharIdx (fun c => c = sep) l with
  | none => (l, none)
  | some i => (l.take i, some (l.drop (i + 1)))

/-- Embeds `_splitparams`: split `;params` off the last path segment (off
the whole path when it has no `/`); no-op without a `;`. -/
def splitParamsPath (l : List Char) : List Char × List Char :=
  if l.contains ';' then
    if l.contains '/' then
      let lastSeg := (l.reverse.takeWhile (fun c => c ≠ '/')).reverse
      let pre := l.take (l.length - lastSeg.length)
      match findCharIdx (fun c => c = ';') lastSeg with
      | some k => (pre ++ lastSeg.take k, lastSeg.drop (k + 1))
      | none => (l, [])
    else
      match findCharIdx (fun c => c = ';') l with
      | some i => (l.take i, l.drop (i + 1))
      | none => (l, [])
  else (l, [])

/-- The `uses_params` scheme list of `urllib.parse`. -/
def usesParams : List String :=
  ["", "ftp", "hdl", "prospero", "http", "imap", "https", "shttp", "rtsp",
    "rtspu", "sip", "sips", "mms", "sftp", "tel"]

/-- The six components of `urlparse`. -/
structure UrlParts where
  scheme : String
  netloc : String
  path : String
  params : String
  query : String
  fragment : String
deriving DecidableEq, Repr

/-- Embeds `urlsplit` on an already cleaned character list: scheme, then
`//netloc` up to the first `/?#`, then the fragment after the first `#`,
then the query after the first `?`. -/
def urlsplitCore (l : List Char) :
    Except String (List Char × List Char × List Char × List Char × List Char) :=
  let sr :=
    match splitScheme l with
    | some sr => sr
    | none => ([], l)
  let scheme := sr.1
  let rest := sr.2
  let hasNL := rest.take 2 = ['/', '/']
  let netloc := if hasNL then (rest.drop 2).takeWhile (fun c => !isNetlocDelim c) else []
  let rest2 := if hasNL then (rest.drop 2).dropWhile (fun c => !isNetlocDelim c) else rest
  if netlocBracketsOk netloc then
    let fr := splitFirstChar '#' rest2
    let qr := splitFirstChar '?' fr.1
    Except.ok (scheme, netloc, qr.1, (qr.2).getD [], (fr.2).getD [])
  else Except.error "Invalid IPv6 URL"

/-- Embeds `urlsplit` on a string. -/
def urlsplitM (url : String) :
    Except String (List Char × List Char × List Char × List Char × List Char) :=
  urlsplitCore (stripControlAndRemove url.data)

/-- Embeds `urlparse`: `urlsplit`, then the params split on the path for
schemes in `uses_params`. -/
def urlparseM (url : String) : Except String UrlParts :=
  match urlsplitM url with
  | Except.error e => Except.error e
  | Except.ok (scheme, netloc, pathC, query, fragment) =>
    if usesParams.contains (String.mk scheme) ∧ pathC.contains ';' then
      let pr := splitParamsPath pathC
      Except.ok
        ⟨String.mk scheme, String.mk netloc, String.mk pr.1, String.mk pr.2,
          String.mk query, String.mk fragment⟩
    else
      Except.ok
        ⟨String.mk scheme, String.mk netloc, String.mk pathC, "",
          String.mk query, String.mk fragment⟩

/-- The `uses_netloc` scheme list of `urllib.parse`. -/
def usesNetloc : List String :=
  ["", "ftp", "http", "gopher", "nntp", "telnet", "imap", "wais", "file",
    "mms", "https", "shttp", "snews", "prospero", "rtsp", "rtsps", "rtspu",
    "rsync", "svn", "svn+ssh", "sftp", "nfs", "git", "git+ssh", "ws", "wss"]

/-- Embeds `urlunsplit` (empty params and fragment cases as
`normalize_media_url` uses them): the `//` authority part is emitted when
the netloc is non-empty or the scheme is a `uses_netloc` scheme and the
path does not already begin with `//`. -/
def urlunsplitM (scheme netloc pathC query fragment : List Char) : List Char :=
  let url1 :=
    if netloc ≠ [] ∨ (scheme ≠ [] ∧ usesNetloc.contains (String.mk scheme) ∧
        pathC.take 2 ≠ ['/', '/']) then
      ('/' :: '/' :: netloc) ++
        (if pathC ≠ [] ∧ pathC.head? ≠ some '/' then '/' :: pathC else pathC)
    else pathC
  let url2 := if scheme ≠ [] then scheme ++ ':' :: url1 else url1
  let url3 := if query ≠ [] then url2 ++ '?' :: query else url2
  if fragment ≠ [] then url3 ++ '#' :: fragment else url3

/-! ## `media.py`: `normalize_media_url` -/

/-- Embeds `normalize_media_url`: parse the URL, take the `format` query
value (else the path suffix, else `jpg`), and rebuild the URL with the
query replaced by exactly `format=<fmt>&name=orig` and params/fragment
dropped (`urlencode` leaves the safe key/value texts unchanged and
`quote_plus`-encodes the format value). -/
def normalize_media_url (url : String) : Except String String :=
  match urlparseM url with
  | Except.error e => Except.error e
  | Except.ok p =>
    let fmt0 := parseQsGetFirst p.query "format"
    let fmt :=
      if fmt0 = "" then
        let suffix := pathSuffixStripped p.path
        if suffix = "" then "jpg" else suffix
      else fmt0
    let q := "format=" ++ quote_plus fmt ++ "&name=orig"
    Except.ok
      (String.mk (urlunsplitM p.scheme.data p.netloc.data p.path.data q.data []))

/-- The format value chosen by `normalize_media_url` for parsed parts `p`:
the first `format` query value, else the path suffix, else `jpg`. -/
def normMediaFmt (p : UrlParts) : String :=
  let fmt0 := parseQsGetFirst p.query "format"
  if fmt0 = "" then
    let suffix := pathSuffixStripped p.path
    if suffix = "" then "jpg" else suffix
  else fmt0

/-! ## `input.py`: `parse_status_id` on URL strings and `load_url_file` -/

/-- Embeds `parse_status_id` on a URL string: `urlparse(url.strip())`
followed by the scheme/host checks and segment scan. -/
def parse_status_id (url : String) : Except String String :=
  match urlparseM (pyStrip url) with
  | Except.error e => Except.error e
  | Except.ok p => parse_status_id_parts p.scheme p.netloc p.path

/-- Embeds the `ArticleInput` model (`models.py`). -/
structure ArticleInput where
  url : String
  status_id : String
deriving DecidableEq, Repr

/-- The line loop of `load_url_file`: strip each line, skip blanks and
`#`-comments, parse the status id (a parse failure aborts with the 1-based
line number), silently drop ids already seen, and append the rest in input
order; an empty final list is an error. -/
def loadUrlGo : Nat → List String → List String → List ArticleInput →
    Except String (List ArticleInput)
  | _, [], _, items =>
    if items.isEmpty then Except.error "No valid URLs found in URL file"
    else Except.ok items
  | lineNumber, raw :: rest, seen, items =>
    let line := pyStrip raw
    if line = "" ∨ line.data.head? = some '#' then
      loadUrlGo (lineNumber + 1) rest seen items
    else
      match parse_status_id line with
      | Except.error e =>
        Except.error ("Invalid URL at line " ++ toString lineNumber ++ ": " ++ e)
      | Except.ok sid =>
        if sid ∈ seen then loadUrlGo (lineNumber + 1) rest seen items
        else loadUrlGo (lineNumber + 1) rest (sid :: seen) (items ++ [⟨line, sid⟩])

/-- Embeds `load_url_file` on the list of lines of the URL file. -/
def load_url_file (lines : List String) : Except String (List ArticleInput) :=
  loadUrlGo 1 lines [] []

/-- Modelled from the spec: the non-comment, non-blank lines that parse,
as `ArticleInput`s, in input order, before deduplication. -/
def parsedEntries (lines : List String) : List ArticleInput :=
  lines.filterMap (fun raw =>
    let line := pyStrip raw
    if line = "" ∨ line.data.head? = some '#' then none
    else
      match parse_status_id line with
      | Except.ok sid => some ⟨line, sid⟩
      | Except.error _ => none)

/-- Modelled from the spec: keep the first entry for each status id, drop
every later duplicate, preserving first-seen order. -/
def dedupByIdSpec : List ArticleInput → List String → List ArticleInput
  | [], _ => []
  | a :: rest, seen =>
    if a.status_id ∈ seen then dedupByIdSpec rest seen
    else a :: dedupByIdSpec rest (a.status_id :: seen)


/-- Invariants satisfied by the components `urlsplit` produces, sufficient
for re-parsing an unsplit URL (used for the idempotence proof). -/
structure SplitInv (scheme netloc path : List Char) : Prop where
  scheme_ok : scheme = [] ∨
    ((∃ c0 rest, scheme = c0 :: rest ∧ isAsciiAlpha c0 = true) ∧
      (∀ c ∈ scheme, schemeChars c = true) ∧ scheme.map asciiLowerChar = scheme)
  netloc_delim : ∀ c ∈ netloc, isNetlocDelim c = false
  netloc_brackets : netlocBracketsOk netloc = true
  netloc_clean : ∀ c ∈ netloc, ¬(c = '\t' ∨ c = '\r' ∨ c = '\n')
  path_clean : ∀ c ∈ path, ¬(c = '\t' ∨ c = '\r' ∨ c = '\n')
  path_no_qf : ∀ c ∈ path, c ≠ '?' ∧ c ≠ '#'
  netloc_path : netloc ≠ [] → path = [] ∨ path.head? = some '/'
  path_head : scheme = [] → netloc = [] → ∀ c, path.head? = some c → 0x20 < c.toNat
  path_scheme : scheme = [] → netloc = [] → splitScheme path = none

end Xmag

namespace Xmag

/-! ## Theorems -/

/-- Prepending a safe character (not a backslash, not one of the probed
specials) does not affect the bare-special scan. -/
theorem noBare_cons_safe (c : Char) (hback : c ≠ '\\') (hspec : c ∉ probedSpecials)
    (rest : List Char) :
    noBareProbedSpecial (c :: rest) = noBareProbedSpecial rest := by
  have hcont : probedSpecials.contains c = false := by
    simpa using hspec
  cases rest with
  | nil => simp [noBareProbedSpecial, hback, hcont, hspec]
  | cons d t => simp [noBareProbedSpecial, hback, hcont, hspec]

/-- Prepending a whole run of safe characters does not affect the scan. -/
theorem noBare_append_safe (pre : List Char)
    (h : ∀ c ∈ pre, c ≠ '\\' ∧ c ∉ probedSpecials) (rest : List Char) :
    noBareProbedSpecial (pre ++ rest) = noBareProbedSpecial rest := by
  induction pre with
  | nil => rfl
  | cons c t ih =>
    have hc := h c (by simp)
    rw [List.cons_append, noBare_cons_safe c hc.1 hc.2,
      ih (fun d hd => h d (by simp [hd]))]

/-- A backslash consumes the following character in the scan. -/
theorem noBare_backslash (d : Char) (rest : List Char) :
    noBareProbedSpecial ('\\' :: d :: rest) = noBareProbedSpecial rest := by
  simp [noBareProbedSpecial]

/-- Any single escape-map output chunk is transparent to the scan. -/
theorem noBare_escapeChunk (c : Char) (rest : List Char) :
    noBareProbedSpecial (latexEscapeChar c ++ rest) = noBareProbedSpecial rest := by
  by_cases hmem : c ∈ latexSpecialChars
  · simp only [latexSpecialChars, List.mem_cons, List.not_mem_nil, or_false] at hmem
    rcases hmem with rfl | rfl | rfl | rfl | rfl | rfl | rfl | rfl | rfl | rfl
    · show noBareProbedSpecial ('\\' :: 't' :: ("extbackslash\x7b\x7d".data ++ rest)) = _
      rw [noBare_backslash]
      exact noBare_append_safe _ (by decide) rest
    · exact noBare_backslash '&' rest
    · exact noBare_backslash '%' rest
    · exact noBare_backslash '$' rest
    · exact noBare_backslash '#' rest
    · exact noBare_backslash '_' rest
    · exact noBare_backslash '{' rest
    · exact noBare_backslash '}' rest
    · show noBareProbedSpecial ('\\' :: 't' :: ("extasciitilde\x7b\x7d".data ++ rest)) = _
      rw [noBare_backslash]
      exact noBare_append_safe _ (by decide) rest
    · show noBareProbedSpecial ('\\' :: 't' :: ("extasciicircum\x7b\x7d".data ++ rest)) = _
      rw [noBare_backslash]
      exact noBare_append_safe _ (by decide) rest
  · have h1 : latexEscapeChar c = [c] := by
      simp only [latexSpecialChars, List.mem_cons, List.not_mem_nil, or_false] at hmem
      push_neg at hmem
      obtain ⟨h1, h2, h3, h4, h5, h6, h7, h8, h9, h10⟩ := hmem
      simp [latexEscapeChar, h1, h2, h3, h4, h5, h6, h7, h8, h9, h10]
    rw [h1]
    refine noBare_cons_safe c ?_ ?_ rest
    · intro hc
      apply hmem
      rw [hc]
      simp [latexSpecialChars]
    · intro hc
      apply hmem
      fin_cases hc <;> simp [latexSpecialChars]

/-- The escape of any string passes the bare-special scan. -/
theorem noBare_latex_escape (l : List Char) :
    noBareProbedSpecial (l.flatMap latexEscapeChar) = true := by
  induction l with
  | nil => rfl
  | cons c t ih => rw [List.flatMap_cons, noBare_escapeChunk]; exact ih

/--
C3: `latex_escape` maps each of the ten special characters (backslash, `&`,
`%`, `$`, `#`, `_`, `{`, `}`, `~`, `^`) to a backslash-led safe replacement,
leaves every other character unchanged, and works in a single pass over the
raw characters (per-character chunks, concatenated).  In particular the
escape of `"50% #1_cost $5 & tax"` contains no literal unescaped `%`, `#`,
`_`, `$`, `&` — no occurrence of those five without a preceding backslash —
and equals the expected fully escaped string.
-/
theorem claim_C3_latex_escape :
    (∀ c : Char, c ∈ latexSpecialChars → (latexEscapeChar c).head? = some '\\' ∧
      latexEscapeChar c ≠ [c]) ∧
    (∀ c : Char, c ∉ latexSpecialChars → latexEscapeChar c = [c]) ∧
    (∀ s : String, noBareProbedSpecial (latex_escape s).data = true) ∧
    latex_escape "50% #1_cost $5 & tax" = "50\\% \\#1\\_cost \\$5 \\& tax" := by
  refine ⟨?_, ?_, ?_, by decide⟩
  · intro c hc
    fin_cases hc <;> exact ⟨rfl, by decide⟩
  · intro c hmem
    simp only [latexSpecialChars, List.mem_cons, List.not_mem_nil, or_false] at hmem
    push_neg at hmem
    obtain ⟨h1, h2, h3, h4, h5, h6, h7, h8, h9, h10⟩ := hmem
    simp [latexEscapeChar, h1, h2, h3, h4, h5, h6, h7, h8, h9, h10]
  · intro s
    exact noBare_latex_escape s.data

/-- Witness for C3 at concrete inputs: `&` is mapped to a backslash escape,
`a` is left unchanged, and the example string scans clean. -/
theorem claim_C3_witness :
    (latexEscapeChar '&').head? = some '\\' ∧ latexEscapeChar 'a' = ['a'] ∧
      noBareProbedSpecial (latex_escape "50% #1_cost $5 & tax").data = true :=
  ⟨(claim_C3_latex_escape.1 '&' (by decide)).1,
    claim_C3_latex_escape.2.1 'a' (by decide),
    claim_C3_latex_escape.2.2.1 "50% #1_cost $5 & tax"⟩

/-- The pagination loop ignores its index argument up to producing the
interspersed list. -/
theorem renderIssueGo_newpage (bodies : List String) (idx : Nat) :
    renderIssueGo PaginationMode.newpage idx bodies =
      List.intersperse "\\newpage" bodies := by
  induction bodies generalizing idx with
  | nil => rfl
  | cons b rest ih =>
    cases rest with
    | nil => simp [renderIssueGo]
    | cons b2 t =>
      rw [List.intersperse_cons_cons]
      show (b :: if PaginationMode.newpage = PaginationMode.newpage ∧ (b2 :: t) ≠ [] then
        "\\newpage" :: renderIssueGo PaginationMode.newpage (idx + 1) (b2 :: t)
        else renderIssueGo PaginationMode.newpage (idx + 1) (b2 :: t)) = _
      rw [if_pos ⟨rfl, by simp⟩, ih (idx + 1)]

/-- Counting the separator in an interspersed list when the separator does
not occur among the elements. -/
theorem count_intersperse (sep : String) (l : List String) (h : sep ∉ l) :
    (List.intersperse sep l).count sep = l.length - 1 := by
  induction l with
  | nil => simp
  | cons a t ih =>
    have ha2 : a ≠ sep := by rintro rfl; exact h (by simp)
    have ha : (a == sep) = false := by simpa using ha2
    cases t with
    | nil => simp [List.count_cons, ha2]
    | cons b t2 =>
      have ht : sep ∉ b :: t2 := fun hm => h (List.mem_cons_of_mem a hm)
      rw [List.intersperse_cons_cons, List.count_cons, List.count_cons, ih ht, ha]
      simp [Nat.succ_sub_one]

/--
C5: assembling an issue with `pagination = newpage` intersperses exactly one
`\newpage` marker between consecutive article bodies — one after each body
except the last.  Consequently, when no body itself equals the marker
string, exactly `N - 1` markers appear for `N` articles.
-/
theorem claim_C5_newpage_breaks :
    (∀ bodies : List String,
      renderIssueBlocks bodies PaginationMode.newpage =
        List.intersperse "\\newpage" bodies) ∧
    (∀ bodies : List String, "\\newpage" ∉ bodies →
      (renderIssueBlocks bodies PaginationMode.newpage).count "\\newpage" =
        bodies.length - 1) := by
  constructor
  · intro bodies
    exact renderIssueGo_newpage bodies 1
  · intro bodies h
    rw [renderIssueBlocks, renderIssueGo_newpage]
    exact count_intersperse _ _ h

/-- Witness for C5: two articles yield exactly one page-break marker. -/
theorem claim_C5_witness :
    (renderIssueBlocks ["bodyA", "bodyB"] PaginationMode.newpage).count "\\newpage" =
      2 - 1 :=
  claim_C5_newpage_breaks.2 ["bodyA", "bodyB"] (by decide)

/-- The inline-flow loop emits a permutation of blocks and images. -/
theorem inlineFlowGo_perm (blocks images : List String) (idx : Nat) :
    List.Perm (inlineFlowGo idx blocks images) (blocks ++ images) := by
  induction blocks generalizing images idx with
  | nil => simp [inlineFlowGo]
  | cons b rest ih =>
    by_cases hins : idx = 1 ∨ idx % 2 = 0
    · cases images with
      | nil =>
        simp only [inlineFlowGo, if_pos hins]
        exact ((ih [] (idx + 1)).cons b).trans (by simp)
      | cons img imgs =>
        simp only [inlineFlowGo, if_pos hins]
        refine (((ih imgs (idx + 1)).cons img).cons b).trans ?_
        exact (List.perm_middle.symm).cons b
    · simp only [inlineFlowGo, if_neg hins]
      exact (ih images (idx + 1)).cons b

/-- The images keep their relative order inside the inline flow. -/
theorem inlineFlowGo_images_sublist (blocks images : List String) (idx : Nat) :
    images.Sublist (inlineFlowGo idx blocks images) := by
  induction blocks generalizing images idx with
  | nil => simp [inlineFlowGo]
  | cons b rest ih =>
    by_cases hins : idx = 1 ∨ idx % 2 = 0
    · cases images with
      | nil => simp
      | cons img imgs =>
        simp only [inlineFlowGo, if_pos hins]
        exact ((ih imgs (idx + 1)).cons₂ img).cons b
    · simp only [inlineFlowGo, if_neg hins]
      exact (ih images (idx + 1)).cons b

/-- The blocks keep their relative order inside the inline flow. -/
theorem inlineFlowGo_blocks_sublist (blocks images : List String) (idx : Nat) :
    blocks.Sublist (inlineFlowGo idx blocks images) := by
  induction blocks generalizing images idx with
  | nil => simp
  | cons b rest ih =>
    by_cases hins : idx = 1 ∨ idx % 2 = 0
    · cases images with
      | nil =>
        simp only [inlineFlowGo, if_pos hins]
        exact (ih [] (idx + 1)).cons₂ b
      | cons img imgs =>
        simp only [inlineFlowGo, if_pos hins]
        exact ((ih imgs (idx + 1)).cons img).cons₂ b
    · simp only [inlineFlowGo, if_neg hins]
      exact (ih images (idx + 1)).cons₂ b

/--
C6: the inline image layout interleaves the supplied images into the block
flow: the result is a permutation of `blocks ++ images` (every block and
every supplied image appears exactly once), both blocks and images keep
their relative order, and with 3 blocks and 1 image the image lands
immediately after block 1.
-/
theorem claim_C6_inline_flow :
    (∀ blocks images : List String,
      List.Perm (inlineFlowParts blocks images) (blocks ++ images)) ∧
    (∀ blocks images : List String,
      images.Sublist (inlineFlowParts blocks images) ∧
        blocks.Sublist (inlineFlowParts blocks images)) ∧
    (∀ b1 b2 b3 img : String,
      inlineFlowParts [b1, b2, b3] [img] = [b1, img, b2, b3]) := by
  refine ⟨fun blocks images => inlineFlowGo_perm blocks images 1,
    fun blocks images => ⟨inlineFlowGo_images_sublist blocks images 1,
      inlineFlowGo_blocks_sublist blocks images 1⟩, ?_⟩
  intro b1 b2 b3 img
  rfl

/--
C8: `LayoutConfig` construction succeeds exactly when `columns ∈ [1, 6]`,
all four margins and the column gap are strictly positive, and the outer
margin does not exceed the inner margin; violating any of these bounds
(inner < outer, columns out of range, non-positive margin or gap) fails at
construction time.
-/
theorem claim_C8_layout_validation (paper : PaperSize) (columns : Int)
    (om im tm bm gap : ℚ) (pag : PaginationMode) (il : ImageLayoutMode)
    (bf ip : Bool) :
    (∃ cfg, mkLayoutConfig paper columns om im tm bm gap pag il bf ip =
        Except.ok cfg) ↔
      (1 ≤ columns ∧ columns ≤ 6 ∧ 0 < om ∧ 0 < im ∧ 0 < tm ∧ 0 < bm ∧
        0 < gap ∧ om ≤ im) := by
  unfold mkLayoutConfig
  constructor
  · rintro ⟨cfg, h⟩
    split_ifs at h with h1 h2 h3 h4 h5 h6 h7
    · push_neg at h1 h2 h3 h4 h5 h6
      have h7' : om ≤ im := le_of_not_lt h7
      exact ⟨h1.1, h1.2, h2, h3, h4, h5, h6, h7'⟩
  · rintro ⟨hc1, hc2, hom, him, htm, hbm, hgap, hrel⟩
    rw [if_neg (by push_neg; exact ⟨hc1, hc2⟩), if_neg (by simpa using hom),
      if_neg (by simpa using him), if_neg (by simpa using htm),
      if_neg (by simpa using hbm), if_neg (by simpa using hgap),
      if_neg (not_lt_of_le hrel)]
    exact ⟨_, rfl⟩

/-- Witness for C8: the defaults of `config.py` (3 columns, margins
4/9/10/10, gap 4) construct successfully, and a config with inner margin
2 < outer margin 4 fails. -/
theorem claim_C8_witness :
    (∃ cfg, mkLayoutConfig PaperSize.a4 3 4 9 10 10 4 PaginationMode.newpage
        ImageLayoutMode.inline false false = Except.ok cfg) ∧
      ¬(∃ cfg, mkLayoutConfig PaperSize.a4 3 4 2 10 10 4 PaginationMode.newpage
          ImageLayoutMode.inline false false = Except.ok cfg) := by
  constructor
  · exact (claim_C8_layout_validation PaperSize.a4 3 4 9 10 10 4
      PaginationMode.newpage ImageLayoutMode.inline false false).mpr (by norm_num)
  · intro hex
    have h := (claim_C8_layout_validation PaperSize.a4 3 4 2 10 10 4
      PaginationMode.newpage ImageLayoutMode.inline false false).mp hex
    norm_num at h

/-- A string with empty character data is the empty string. -/
theorem string_eq_empty_of_data_eq_nil {s : String} (h : s.data = []) : s = "" := by
  cases s
  simp only [String.data] at h
  subst h
  rfl

/-- Rebuilding a string from its character data is the identity. -/
theorem string_mk_data (s : String) : String.mk s.data = s := by
  cases s
  rfl

/-- The function `splitOnChar` never returns the empty list of segments. -/
theorem splitOnChar_ne_nil (sep : Char) (l : List Char) : splitOnChar sep l ≠ [] := by
  cases l with
  | nil => simp [splitOnChar]
  | cons c cs =>
    simp only [splitOnChar]
    by_cases hc : c = sep
    · simp [hc]
    · simp only [if_neg hc]
      rcases hr : splitOnChar sep cs with _ | ⟨s, ss⟩ <;> simp

/-- Splitting a list that starts with the separator. -/
theorem splitOnChar_cons_sep (sep : Char) (v : List Char) :
    splitOnChar sep (sep :: v) = [] :: splitOnChar sep v := by
  simp [splitOnChar]

/-- Splitting `u ++ v` when `u` contains no separator extends the first
segment of the split of `v` with `u`. -/
theorem splitOnChar_append_no_sep (sep : Char) (u v : List Char) (h : List Char)
    (t' : List (List Char))
    (hu : ∀ c ∈ u, c ≠ sep) (hv : splitOnChar sep v = h :: t') :
    splitOnChar sep (u ++ v) = (u ++ h) :: t' := by
  induction u with
  | nil => simpa using hv
  | cons c u2 ih =>
    have hc : c ≠ sep := hu c (by simp)
    have ih' := ih (fun d hd => hu d (by simp [hd]))
    rw [List.cons_append]
    simp only [splitOnChar, if_neg hc, ih']
    rfl

/-- Splitting a separator-free list gives a single segment. -/
theorem splitOnChar_no_sep (sep : Char) (u : List Char) (hu : ∀ c ∈ u, c ≠ sep) :
    splitOnChar sep u = [u] := by
  have := splitOnChar_append_no_sep sep u [] [] [] hu rfl
  simpa using this

/-- ASCII digits are not slashes. -/
theorem isAsciiDigit_ne_slash {c : Char} (h : isAsciiDigit c = true) : c ≠ '/' := by
  intro hc
  subst hc
  exact absurd h (by decide)

/-- The path `/<user>/status/<digits>` splits into the three expected
non-empty segments when `user` and `digits` contain no slash. -/
theorem pathParts_user_status_digits (user digits : String)
    (hu0 : user ≠ "") (hu : ∀ c ∈ user.data, c ≠ '/')
    (hd0 : digits.data ≠ []) (hd : ∀ c ∈ digits.data, c ≠ '/') :
    pathParts ("/" ++ user ++ "/status/" ++ digits) = [user, "status", digits] := by
  have hdata : ("/" ++ user ++ "/status/" ++ digits).data =
      '/' :: (user.data ++ ('/' :: ("status".data ++ ('/' :: digits.data)))) := by
    simp [String.data_append]
  have hsplit3 : splitOnChar '/' ('/' :: digits.data) = [] :: [digits.data] := by
    rw [splitOnChar_cons_sep, splitOnChar_no_sep '/' digits.data hd]
  have hsplit2 : splitOnChar '/' ("status".data ++ ('/' :: digits.data)) =
      ["status".data, digits.data] := by
    have := splitOnChar_append_no_sep '/' "status".data ('/' :: digits.data)
      [] [digits.data] (by decide) hsplit3
    simpa using this
  have hsplit1 : splitOnChar '/' (user.data ++ ('/' :: ("status".data ++ ('/' :: digits.data)))) =
      user.data :: ["status".data, digits.data] := by
    have hv : splitOnChar '/' ('/' :: ("status".data ++ ('/' :: digits.data))) =
        [] :: ["status".data, digits.data] := by
      rw [splitOnChar_cons_sep, hsplit2]
    have := splitOnChar_append_no_sep '/' user.data
      ('/' :: ("status".data ++ ('/' :: digits.data))) [] ["status".data, digits.data] hu hv
    simpa using this
  have hu0' : user.data ≠ [] := fun hnil => hu0 (string_eq_empty_of_data_eq_nil hnil)
  rw [pathParts, hdata, splitOnChar_cons_sep, hsplit1]
  simp [hu0', hd0, string_mk_data]

/-- When the segment list has no adjacent `"status"`/`digits` pair, the scan
loop of `parse_status_id` fails. -/
theorem findStatusId_error_of_no_pair (parts : List String)
    (h : hasStatusDigitPair parts = false) :
    ∃ e, findStatusId parts = Except.error e := by
  induction parts with
  | nil => exact ⟨_, rfl⟩
  | cons p rest ih =>
    cases rest with
    | nil =>
      by_cases hp : p = "status" <;> simp [findStatusId, hp]
    | cons next r2 =>
      simp only [hasStatusDigitPair, Bool.or_eq_false_iff, Bool.and_eq_false_iff] at h
      obtain ⟨h1, h2⟩ := h
      by_cases hp : p = "status"
      · subst hp
        have hnum : pyIsDigit next = false := by
          rcases h1 with h1 | h1
          · simp at h1
          · exact h1
        refine ⟨"Status id is not numeric", ?_⟩
        simp [findStatusId, hnum]
      · have := ih h2
        simpa [findStatusId, hp] using this

/-- The scan loop commits to the first `"status"` segment that has a
successor: a non-numeric successor is a hard error whatever comes later. -/
theorem findStatusId_commits_first (l : List String) (s : String) (r : List String)
    (hnot : "status" ∉ l) (hs : pyIsDigit s = false) :
    findStatusId (l ++ "status" :: s :: r) = Except.error "Status id is not numeric" := by
  induction l with
  | nil => simp [findStatusId, hs]
  | cons p l2 ih =>
    have hp : p ≠ "status" := fun hp => hnot (hp ▸ List.mem_cons_self p l2)
    have hnot2 : "status" ∉ l2 := fun hm => hnot (List.mem_cons_of_mem p hm)
    simpa [findStatusId, hp] using ih hnot2

/--
C2 (amended): for every URL with scheme `https`, host `x.com` and path
`/<user>/status/<digits>` where `<user>` is a non-empty slash-free segment
other than `"status"` itself and `<digits>` is all digits,
`parse_status_id` returns exactly `<digits>`; for every URL whose
(lower-cased) host is not one of x.com / www.x.com / twitter.com /
www.twitter.com, or whose path contains no adjacent `/status/<digits>`
segment pair, it fails with an error.
-/
theorem claim_C2_parse_status_id :
    (∀ user digits : String, user ≠ "" → user ≠ "status" →
      (∀ c ∈ user.data, c ≠ '/') → pyIsDigit digits = true →
      parse_status_id_parts "https" "x.com" ("/" ++ user ++ "/status/" ++ digits) =
        Except.ok digits) ∧
    (∀ scheme netloc path : String,
      allowedHosts.contains (asciiLower netloc) = false →
      ∃ e, parse_status_id_parts scheme netloc path = Except.error e) ∧
    (∀ scheme netloc path : String,
      hasStatusDigitPair (pathParts path) = false →
      ∃ e, parse_status_id_parts scheme netloc path = Except.error e) := by
  refine ⟨?_, ?_, ?_⟩
  · intro user digits hu0 hustat hu hdig
    have hd0 : digits.data ≠ [] := by
      intro hnil
      rw [pyIsDigit, hnil] at hdig
      simp at hdig
    have hdall : ∀ c ∈ digits.data, c ≠ '/' := by
      intro c hc
      have : isAsciiDigit c = true := by
        have := (Bool.and_eq_true _ _).mp hdig
        exact List.all_eq_true.mp this.2 c hc
      exact isAsciiDigit_ne_slash this
    rw [parse_status_id_parts, if_neg (by simp), if_neg (by decide),
      pathParts_user_status_digits user digits hu0 hu hd0 hdall]
    simp [findStatusId, hustat, hdig]
  · intro scheme netloc path hhost
    rw [parse_status_id_parts]
    by_cases hs : scheme = "http" ∨ scheme = "https"
    · rw [if_neg (not_not_intro hs), if_pos (by rw [hhost]; simp)]
      exact ⟨_, rfl⟩
    · rw [if_pos hs]
      exact ⟨_, rfl⟩
  · intro scheme netloc path hpair
    rw [parse_status_id_parts]
    by_cases hs : scheme = "http" ∨ scheme = "https"
    · rw [if_neg (not_not_intro hs)]
      by_cases hh : allowedHosts.contains (asciiLower netloc)
      · rw [if_neg (not_not_intro hh)]
        exact findStatusId_error_of_no_pair _ hpair
      · rw [if_pos hh]
        exact ⟨_, rfl⟩
    · rw [if_pos hs]
      exact ⟨_, rfl⟩

/-- Counterexample to C2 as stated: `https://x.com/status/status/123` has
the shape `https://x.com/<user>/status/<digits>` with `<user> = "status"`
and all-digits id `"123"`, yet `parse_status_id` does not return `"123"`. -/
theorem claim_C2_counterexample :
    parse_status_id_parts "https" "x.com" ("/" ++ "status" ++ "/status/" ++ "123") ≠
      Except.ok "123" := by
  have heval : parse_status_id_parts "https" "x.com"
      ("/" ++ "status" ++ "/status/" ++ "123") =
      Except.error "Status id is not numeric" := rfl
  rw [heval]
  intro h
  exact Except.noConfusion h

/-- Witness for C2 at concrete inputs: the well-formed URL succeeds, a
foreign host fails, and a path without `/status/<digits>` fails. -/
theorem claim_C2_witness :
    parse_status_id_parts "https" "x.com" ("/" ++ "alice" ++ "/status/" ++ "12345") =
        Except.ok "12345" ∧
      (∃ e, parse_status_id_parts "https" "example.com" "/alice/status/12345" =
        Except.error e) ∧
      (∃ e, parse_status_id_parts "https" "x.com" "/alice/post/12345" =
        Except.error e) :=
  ⟨claim_C2_parse_status_id.1 "alice" "12345" (by decide) (by decide)
      (by decide) (by decide),
    claim_C2_parse_status_id.2.1 "https" "example.com" "/alice/status/12345" (by decide),
    claim_C2_parse_status_id.2.2 "https" "x.com" "/alice/post/12345" (by decide)⟩

/--
C9: `parse_status_id` commits to the first `"status"` path segment: on an
allowed host and scheme, when the segment right after the first `"status"`
exists but is not all digits, the parse fails with the non-numeric error,
even when a later `/status/<digits>` pair with an all-digits id occurs in
the same path.
-/
theorem claim_C9_first_status_commit (scheme netloc path : String)
    (hs : scheme = "http" ∨ scheme = "https")
    (hh : allowedHosts.contains (asciiLower netloc) = true)
    (l : List String) (s : String) (r : List String)
    (hsplit : pathParts path = l ++ "status" :: s :: r)
    (hfirst : "status" ∉ l) (hnum : pyIsDigit s = false) :
    parse_status_id_parts scheme netloc path =
      Except.error "Status id is not numeric" := by
  rw [parse_status_id_parts, if_neg (not_not_intro hs), if_neg (by rw [hh]; simp), hsplit]
  exact findStatusId_commits_first l s r hfirst hnum

/-- Witness for C9: `/u/status/abc/status/123` on `x.com` fails with the
non-numeric error although the later pair `/status/123` is all digits. -/
theorem claim_C9_witness :
    parse_status_id_parts "https" "x.com" "/u/status/abc/status/123" =
        Except.error "Status id is not numeric" ∧
      pyIsDigit "123" = true :=
  ⟨claim_C9_first_status_commit "https" "x.com" "/u/status/abc/status/123"
      (Or.inr rfl) (by decide) ["u"] "abc" ["status", "123"] (by decide)
      (by decide) (by decide),
    by decide⟩


/-- Lines appearing after a bare `"Views"` line never influence the
per-line scan: the scan output is the same whatever follows that line. -/
theorem sanitizeLoop_truncates_at (brk : String) (hbrk : brk = "Views" ∨ brk = "·")
    (n h : String) (ls rs rs' : List String) :
    sanitizeLoop n h (ls ++ brk :: rs) = sanitizeLoop n h (ls ++ brk :: rs') := by
  induction ls with
  | nil =>
    rcases hbrk with rfl | rfl <;> rfl
  | cons l ls2 ih =>
    simp only [List.cons_append, sanitizeLoop]
    split_ifs <;> simp [ih]

/--
C1 (amended): in `_sanitize_text`, a line that is exactly `"Views"` or a
bare middot `"·"` is a truncation point, exactly like the boilerplate
stop-phrase and compact timestamp lines: the line itself and everything
after it are discarded, rather than the line being dropped per-line with
later lines retained.  Formally: the scan output never depends on what
follows such a line, a leading such line empties the scan, and on the
concrete input `"first\nViews\nlast"` the sanitizer output equals the
output for `"first\nViews"`.
-/
theorem claim_C1_views_truncates :
    (∀ n h : String, ∀ ls rs rs' : List String,
      sanitizeLoop n h (ls ++ "Views" :: rs) = sanitizeLoop n h (ls ++ "Views" :: rs')) ∧
    (∀ n h : String, ∀ ls rs rs' : List String,
      sanitizeLoop n h (ls ++ "·" :: rs) = sanitizeLoop n h (ls ++ "·" :: rs')) ∧
    (∀ n h : String, ∀ rs : List String, sanitizeLoop n h ("Views" :: rs) = []) ∧
    (∀ n h : String, ∀ rs : List String, sanitizeLoop n h ("·" :: rs) = []) ∧
    sanitize_text_lines "first\nViews\nlast" "Alice" "@alice" =
      sanitize_text_lines "first\nViews" "Alice" "@alice" := by
  refine ⟨fun n h ls rs rs' => sanitizeLoop_truncates_at "Views" (Or.inl rfl) n h ls rs rs',
    fun n h ls rs rs' => sanitizeLoop_truncates_at "·" (Or.inr rfl) n h ls rs rs',
    fun n h rs => rfl, fun n h rs => rfl, by decide⟩

/-- Counterexample to C1 as stated: on `"first\nViews\nlast"` (author
`Alice` / `@alice`) the sanitizer yields `"first"` — the line after the
bare `"Views"` line is *not* retained, so `"Views"` is not a per-line
filter. -/
theorem claim_C1_counterexample :
    sanitize_text_lines "first\nViews\nlast" "Alice" "@alice" = "first" ∧
      sanitize_text_lines "first\nViews\nlast" "Alice" "@alice" ≠ "first\nlast" := by
  constructor
  · decide
  · decide


/-- None of the four inline forms matches at a position whose head is not
one of the three trigger characters. -/
theorem inline_matchers_none (c : Char) (rest : List Char)
    (h1 : c ≠ '[') (h2 : c ≠ '*') (h3 : c ≠ backtickChar) :
    matchLink (c :: rest) = none ∧ matchBold (c :: rest) = none ∧
      matchCode (c :: rest) = none ∧ matchItalic (c :: rest) = none := by
  refine ⟨by simp [matchLink, h1], ?_, by simp [matchCode, h3], by simp [matchItalic, h2]⟩
  cases rest with
  | nil => rfl
  | cons c2 r => simp [matchBold, h2]

/-- With no trigger characters present, the scan escapes every character
exactly once (it degenerates to `latex_escape`). -/
theorem renderInlineGoF_no_triggers (l : List Char) (fuel : Nat)
    (hfuel : l.length ≤ fuel)
    (h : ∀ c ∈ l, c ≠ '[' ∧ c ≠ '*' ∧ c ≠ backtickChar) :
    renderInlineGoF fuel l = latexEscapeList l := by
  induction l generalizing fuel with
  | nil => cases fuel <;> rfl
  | cons c rest ih =>
    cases fuel with
    | zero => simp at hfuel
    | succ f =>
      obtain ⟨h1, h2, h3⟩ := h c (by simp)
      obtain ⟨m1, m2, m3, m4⟩ := inline_matchers_none c rest h1 h2 h3
      rw [renderInlineGoF, m1, m2, m3, m4]
      rw [ih f (by simpa using Nat.lt_succ_iff.mp (Nat.lt_of_lt_of_le (Nat.lt_succ_self _) (by simpa using hfuel)))
        (fun d hd => h d (by simp [hd]))]
      rfl

/--
C4: the inline markup renderer scans left to right with first-match-wins
priority link, bold, inline code, italic (the alternation order of
`_INLINE_MARKUP_RE`); text outside matches is escaped exactly once and
substituted output is never re-scanned.  In particular, input without the
trigger characters `[`, `*`, backtick renders exactly as its LaTeX escape,
and `"Read **this** and [source](https://example.com)."` produces a bold
span `this` and a link span with href `https://example.com` and label
`source`.
-/
theorem claim_C4_inline_markup :
    (∀ s : String, (∀ c ∈ s.data, c ≠ '[' ∧ c ≠ '*' ∧ c ≠ backtickChar) →
      render_inline_markup s = latex_escape s) ∧
    render_inline_markup "Read **this** and [source](https://example.com)." =
      "Read \\textbf\x7bthis\x7d and \\href\x7bhttps://example.com\x7d\x7bsource\x7d." ∧
    render_inline_markup "*a* **b**" = "\\emph\x7ba\x7d \\textbf\x7bb\x7d" := by
  refine ⟨?_, by decide, by decide⟩
  intro s hs
  rw [render_inline_markup, renderInlineGoF_no_triggers s.data s.data.length le_rfl hs]
  rfl

/-- Witness for C4: a markup-free string renders as its plain escape. -/
theorem claim_C4_witness :
    render_inline_markup "plain 50% text." = latex_escape "plain 50% text." :=
  claim_C4_inline_markup.1 "plain 50% text." (by decide)

/-- The spec-side dedup produces pairwise distinct ids, none from `seen`. -/
theorem dedupByIdSpec_nodup (entries : List ArticleInput) (seen : List String) :
    ((dedupByIdSpec entries seen).map ArticleInput.status_id).Nodup ∧
      ∀ x ∈ (dedupByIdSpec entries seen).map ArticleInput.status_id, x ∉ seen := by
  induction entries generalizing seen with
  | nil => simp [dedupByIdSpec]
  | cons a rest ih =>
    by_cases hdup : a.status_id ∈ seen
    · simpa [dedupByIdSpec, hdup] using ih seen
    · have hih := ih (a.status_id :: seen)
      refine ⟨?_, ?_⟩
      · simp only [dedupByIdSpec, if_neg hdup, List.map_cons, List.nodup_cons]
        exact ⟨fun hmem => (hih.2 _ hmem) (List.mem_cons_self _ _), hih.1⟩
      · intro x hx
        simp only [dedupByIdSpec, if_neg hdup, List.map_cons, List.mem_cons] at hx
        rcases hx with rfl | hx
        · exact hdup
        · intro hxs
          exact (hih.2 x hx) (List.mem_cons_of_mem _ hxs)

/-- The accumulator form of the `load_url_file` loop against the spec-side
dedup. -/
theorem loadUrlGo_ok (ls : List String) :
    ∀ (n : Nat) (seen : List String) (items out : List ArticleInput),
      loadUrlGo n ls seen items = Except.ok out →
      out = items ++ dedupByIdSpec (parsedEntries ls) seen := by
  induction ls with
  | nil =>
    intro n seen items out h
    by_cases he : items.isEmpty
    · rw [loadUrlGo, if_pos he] at h
      exact absurd h (by simp)
    · rw [loadUrlGo, if_neg he] at h
      cases h
      simp [parsedEntries, dedupByIdSpec]
  | cons raw rest ih =>
    intro n seen items out h
    simp only [loadUrlGo] at h
    simp only [parsedEntries, List.filterMap_cons]
    by_cases hskip : pyStrip raw = "" ∨ (pyStrip raw).data.head? = some '#'
    · rw [if_pos hskip] at h
      rw [if_pos hskip]
      exact ih (n + 1) seen items out h
    · rw [if_neg hskip] at h
      rw [if_neg hskip]
      rcases hp : parse_status_id (pyStrip raw) with e | sid
      · rw [hp] at h
        simp at h
      · rw [hp] at h
        simp only at h
        by_cases hdup : sid ∈ seen
        · rw [if_pos hdup] at h
          have := ih (n + 1) seen items out h
          rw [this]
          simp [dedupByIdSpec, hdup, parsedEntries]
        · rw [if_neg hdup] at h
          have := ih (n + 1) (sid :: seen) (items ++ [⟨pyStrip raw, sid⟩]) out h
          rw [this]
          simp [dedupByIdSpec, hdup, parsedEntries]

/--
C7: `load_url_file` deduplicates by status id: on success the returned list
is exactly the first-seen-order list of parsed non-comment lines with every
later duplicate id silently dropped (even when the literal URLs differ),
and its status ids are pairwise distinct.
-/
theorem claim_C7_load_url_dedup (lines : List String) (items : List ArticleInput)
    (h : load_url_file lines = Except.ok items) :
    items = dedupByIdSpec (parsedEntries lines) [] ∧
      (items.map ArticleInput.status_id).Nodup := by
  have heq := loadUrlGo_ok lines 1 [] [] items h
  simp only [List.nil_append] at heq
  exact ⟨heq, heq ▸ (dedupByIdSpec_nodup (parsedEntries lines) []).1⟩

/-- Witness for C7: two lines with the same id but different query strings
keep only the first; comments are skipped and order is preserved. -/
theorem claim_C7_witness :
    ([⟨"https://x.com/a/status/111", "111"⟩,
        ⟨"https://twitter.com/b/status/222", "222"⟩] : List ArticleInput) =
      dedupByIdSpec
        (parsedEntries ["# comment", "https://x.com/a/status/111",
          "https://x.com/a/status/111?s=20", "https://twitter.com/b/status/222"]) [] ∧
      (([⟨"https://x.com/a/status/111", "111"⟩,
          ⟨"https://twitter.com/b/status/222", "222"⟩] :
        List ArticleInput).map ArticleInput.status_id).Nodup :=
  claim_C7_load_url_dedup
    ["# comment", "https://x.com/a/status/111", "https://x.com/a/status/111?s=20",
      "https://twitter.com/b/status/222"]
    [⟨"https://x.com/a/status/111", "111"⟩,
      ⟨"https://twitter.com/b/status/222", "222"⟩]
    (by rfl)

/-- Hex digits round-trip through `hexDigitU`, and are neither `%`, `+`,
nor characters special to URL splitting. -/
theorem hexDigitU_facts : ∀ b : Nat, b < 16 →
    hexVal (hexDigitU b) = some b ∧ hexDigitU b ≠ '%' ∧ hexDigitU b ≠ '+' := by
  decide

/-- Every character is a non-surrogate scalar value. -/
theorem char_toNat_valid (c : Char) :
    c.toNat < 0xD800 ∨ (0xE000 ≤ c.toNat ∧ c.toNat < 0x110000) := by
  have hv : c.val.toNat < 0xd800 ∨ (0xdfff < c.val.toNat ∧ c.val.toNat < 0x110000) :=
    c.valid
  have he : c.toNat = c.val.toNat := rfl
  rw [he]
  rcases hv with h | ⟨h1, h2⟩
  · exact Or.inl h
  · exact Or.inr ⟨by omega, h2⟩

/-- All bytes of a UTF-8 encoding are below 256. -/
theorem utf8EncodeChar_lt (c : Char) : ∀ b ∈ utf8EncodeChar c, b < 256 := by
  intro b hb
  have hval : c.toNat < 0x110000 := by
    rcases char_toNat_valid c with h | ⟨_, h⟩
    · omega
    · exact h
  by_cases h1 : c.toNat < 0x80
  · simp only [utf8EncodeChar, if_pos h1, List.mem_singleton] at hb
    omega
  · by_cases h2 : c.toNat < 0x800
    · simp only [utf8EncodeChar, if_neg h1, if_pos h2, List.mem_cons,
        List.mem_singleton, List.not_mem_nil, or_false] at hb
      rcases hb with rfl | rfl <;> omega
    · by_cases h3 : c.toNat < 0x10000
      · simp only [utf8EncodeChar, if_neg h1, if_neg h2, if_pos h3, List.mem_cons,
          List.not_mem_nil, or_false] at hb
        rcases hb with rfl | rfl | rfl <;> omega
      · simp only [utf8EncodeChar, if_neg h1, if_neg h2, if_neg h3, List.mem_cons,
          List.not_mem_nil, or_false] at hb
        rcases hb with rfl | rfl | rfl | rfl <;> omega

/-- Lead-byte step facts for the incremental decoder. -/
theorem utf8Step_lead_ascii (b : Nat) (hb : b < 0x80) :
    utf8Step none b = ([Char.ofNat b], none) := by
  simp only [utf8Step, utf8Lead, if_pos hb]

/-- A two-byte lead enters the one-continuation state. -/
theorem utf8Step_lead_two (b : Nat) (hb1 : 0xC2 ≤ b) (hb2 : b < 0xE0) :
    utf8Step none b = ([], some (1, b - 0xC0)) := by
  simp only [utf8Step, utf8Lead]
  rw [if_neg (by omega), if_neg (by omega), if_pos hb2]

/-- A three-byte lead enters the two-continuation state. -/
theorem utf8Step_lead_three (b : Nat) (hb1 : 0xE0 ≤ b) (hb2 : b < 0xF0) :
    utf8Step none b = ([], some (2, b - 0xE0)) := by
  simp only [utf8Step, utf8Lead]
  rw [if_neg (by omega), if_neg (by omega), if_neg (by omega), if_pos hb2]

/-- A four-byte lead enters the three-continuation state. -/
theorem utf8Step_lead_four (b : Nat) (hb1 : 0xF0 ≤ b) (hb2 : b < 0xF5) :
    utf8Step none b = ([], some (3, b - 0xF0)) := by
  simp only [utf8Step, utf8Lead]
  rw [if_neg (by omega), if_neg (by omega), if_neg (by omega), if_neg (by omega),
    if_pos hb2]

/-- A continuation byte midway through a sequence accumulates. -/
theorem utf8Step_cont (k acc b : Nat) (hb1 : 0x80 ≤ b) (hb2 : b < 0xC0) :
    utf8Step (some (k + 2, acc)) b = ([], some (k + 1, acc * 0x40 + (b - 0x80))) := by
  simp only [utf8Step, if_pos (And.intro hb1 hb2)]
  rfl

/-- The final continuation byte of a valid sequence emits the character. -/
theorem utf8Step_fin (acc b : Nat) (hb1 : 0x80 ≤ b) (hb2 : b < 0xC0)
    (hv : validCodepoint (acc * 0x40 + (b - 0x80)) = true) :
    utf8Step (some (1, acc)) b = ([Char.ofNat (acc * 0x40 + (b - 0x80))], none) := by
  simp only [utf8Step, if_pos (And.intro hb1 hb2), hv]
  simp

/-- Unfolding one decoder step inside a run. -/
theorem utf8Run_cons (b : Nat) (bs : List Nat) (st : Option (Nat × Nat)) :
    utf8Run (b :: bs) st =
      ((utf8Step st b).1 ++ (utf8Run bs (utf8Step st b).2).1,
        (utf8Run bs (utf8Step st b).2).2) := rfl

/-- Feeding the encoder output of one character into the fresh decoder
yields exactly that character, back in the fresh state. -/
theorem utf8Run_encodeChar (c : Char) : utf8Run (utf8EncodeChar c) none = ([c], none) := by
  have hval : c.toNat < 0x110000 := by
    rcases char_toNat_valid c with h | ⟨_, h⟩
    · omega
    · exact h
  have hsur := char_toNat_valid c
  by_cases h1 : c.toNat < 0x80
  · rw [show utf8EncodeChar c = [c.toNat] from by simp [utf8EncodeChar, h1]]
    rw [utf8Run_cons, utf8Step_lead_ascii _ h1]
    simp [utf8Run, utf8Flush, Char.ofNat_toNat]
  · by_cases h2 : c.toNat < 0x800
    · rw [show utf8EncodeChar c = [0xC0 + c.toNat / 0x40, 0x80 + c.toNat % 0x40]
        from by simp [utf8EncodeChar, h1, h2]]
      rw [utf8Run_cons, utf8Step_lead_two _ (by omega) (by omega)]
      rw [utf8Run_cons, utf8Step_fin _ _ (by omega) (by omega) ?hv]
      case hv =>
        simp only [validCodepoint, Bool.and_eq_true, decide_eq_true_eq, Bool.or_eq_true]
        refine ⟨by omega, by omega, by omega⟩
      rw [show (0xC0 + c.toNat / 0x40 - 0xC0) * 0x40 +
          (0x80 + c.toNat % 0x40 - 0x80) = c.toNat from by omega]
      simp [utf8Run, Char.ofNat_toNat]
    · by_cases h3 : c.toNat < 0x10000
      · rw [show utf8EncodeChar c = [0xE0 + c.toNat / 0x1000,
            0x80 + c.toNat / 0x40 % 0x40, 0x80 + c.toNat % 0x40]
          from by simp [utf8EncodeChar, h1, h2, h3]]
        rw [utf8Run_cons, utf8Step_lead_three _ (by omega) (by omega)]
        rw [utf8Run_cons, show (2 : Nat) = 0 + 2 from rfl,
          utf8Step_cont _ _ _ (by omega) (by omega)]
        rw [utf8Run_cons, utf8Step_fin _ _ (by omega) (by omega) ?hv]
        case hv =>
          simp only [validCodepoint, Bool.and_eq_true, decide_eq_true_eq, Bool.or_eq_true]
          refine ⟨by omega, ?_, by omega⟩
          rcases hsur with h | ⟨h, _⟩
          · left; omega
          · right; omega
        rw [show ((0xE0 + c.toNat / 0x1000 - 0xE0) * 0x40 +
            (0x80 + c.toNat / 0x40 % 0x40 - 0x80)) * 0x40 +
            (0x80 + c.toNat % 0x40 - 0x80) = c.toNat from by omega]
        simp [utf8Run, Char.ofNat_toNat]
      · rw [show utf8EncodeChar c = [0xF0 + c.toNat / 0x40000,
            0x80 + c.toNat / 0x1000 % 0x40, 0x80 + c.toNat / 0x40 % 0x40,
            0x80 + c.toNat % 0x40]
          from by simp [utf8EncodeChar, h1, h2, h3]]
        rw [utf8Run_cons, utf8Step_lead_four _ (by omega) (by omega)]
        rw [utf8Run_cons, show (3 : Nat) = 1 + 2 from rfl,
          utf8Step_cont _ _ _ (by omega) (by omega)]
        rw [utf8Run_cons, show (1 + 1 : Nat) = 0 + 2 from rfl,
          utf8Step_cont _ _ _ (by omega) (by omega)]
        rw [utf8Run_cons, utf8Step_fin _ _ (by omega) (by omega) ?hv]
        case hv =>
          simp only [validCodepoint, Bool.and_eq_true, decide_eq_true_eq, Bool.or_eq_true]
          refine ⟨by omega, by omega, by omega⟩
        rw [show ((((0xF0 + c.toNat / 0x40000 - 0xF0) * 0x40 +
            (0x80 + c.toNat / 0x1000 % 0x40 - 0x80)) * 0x40 +
            (0x80 + c.toNat / 0x40 % 0x40 - 0x80)) * 0x40 +
            (0x80 + c.toNat % 0x40 - 0x80)) = c.toNat from by omega]
        simp [utf8Run, Char.ofNat_toNat]

/-- A hex digit is neither `%` nor `+`. -/
theorem hexVal_ne_special {c : Char} {v : Nat} (h : hexVal c = some v) :
    c ≠ '%' ∧ c ≠ '+' := by
  constructor
  · rintro rfl
    rw [show hexVal '%' = none from rfl] at h
    exact Option.noConfusion h
  · rintro rfl
    rw [show hexVal '+' = none from rfl] at h
    exact Option.noConfusion h

/-- A literal (non-`%`) head character passes into the item stream. -/
theorem pctItems_cons_lit (c : Char) (hc : c ≠ '%') (l : List Char) :
    pctItems (splitOnChar '%' (c :: l)) =
      PctItem.lit c :: pctItems (splitOnChar '%' l) := by
  rcases hs : splitOnChar '%' l with _ | ⟨s, ss⟩
  · exact absurd hs (splitOnChar_ne_nil '%' l)
  · simp only [splitOnChar, if_neg hc, hs]
    simp [pctItems]

/-- A valid `%XY` escape at the head becomes one byte item. -/
theorem pctItems_cons_escape (h1 h2 : Char) (v1 v2 : Nat)
    (hh1 : hexVal h1 = some v1) (hh2 : hexVal h2 = some v2) (l : List Char) :
    pctItems (splitOnChar '%' ('%' :: h1 :: h2 :: l)) =
      PctItem.byte (16 * v1 + v2) :: pctItems (splitOnChar '%' l) := by
  rcases hs : splitOnChar '%' l with _ | ⟨s, ss⟩
  · exact absurd hs (splitOnChar_ne_nil '%' l)
  · have hsplit : splitOnChar '%' (h1 :: h2 :: l) = (h1 :: h2 :: s) :: ss := by
      have := splitOnChar_append_no_sep '%' [h1, h2] l s ss ?hmem hs
      · simpa using this
      case hmem =>
        intro d hd
        simp only [List.mem_cons, List.not_mem_nil, or_false] at hd
        rcases hd with rfl | rfl
        · exact (hexVal_ne_special hh1).1
        · exact (hexVal_ne_special hh2).1
    rw [splitOnChar_cons_sep, hsplit]
    simp [pctItems, pctSegItems, hh1, hh2]

/-- A run of percent-escaped bytes becomes the corresponding byte items. -/
theorem pctItems_escape_run (bs : List Nat) (hb : ∀ b ∈ bs, b < 256) (l : List Char) :
    pctItems (splitOnChar '%' (bs.flatMap pctEncodeByte ++ l)) =
      bs.map PctItem.byte ++ pctItems (splitOnChar '%' l) := by
  induction bs with
  | nil => simp
  | cons b bs2 ih =>
    have hlt : b < 256 := hb b (by simp)
    have hd1 := hexDigitU_facts (b / 16) (by omega)
    have hd2 := hexDigitU_facts (b % 16) (by omega)
    rw [List.flatMap_cons, List.append_assoc]
    rw [show pctEncodeByte b = '%' :: hexDigitU (b / 16) :: [hexDigitU (b % 16)]
      from rfl]
    simp only [List.cons_append, List.nil_append]
    rw [pctItems_cons_escape _ _ _ _ hd1.1 hd2.1]
    rw [ih (fun x hx => hb x (by simp [hx]))]
    rw [show 16 * (b / 16) + b % 16 = b from by omega]
    simp

/-- Byte items feed the incremental decoder as a run. -/
theorem decodeItems_byte_run (bs : List Nat) (items : List PctItem)
    (st : Option (Nat × Nat)) :
    decodeItems (bs.map PctItem.byte ++ items) st =
      (utf8Run bs st).1 ++ decodeItems items (utf8Run bs st).2 := by
  induction bs generalizing st with
  | nil => simp [utf8Run]
  | cons b bs2 ih =>
    rw [List.map_cons, List.cons_append]
    rw [show decodeItems (PctItem.byte b :: (bs2.map PctItem.byte ++ items)) st =
      (utf8Step st b).1 ++ decodeItems (bs2.map PctItem.byte ++ items) (utf8Step st b).2
      from rfl]
    rw [ih, utf8Run_cons]
    simp [List.append_assoc]

/-- Core round-trip at the character-list level: percent-decoding the
percent-encoding of any text restores the text. -/
theorem unquote_quote_chars (l : List Char) :
    decodeItems (pctItems (splitOnChar '%'
      ((l.flatMap quotePlusChar).map (fun c => if c = '+' then ' ' else c)))) none = l := by
  induction l with
  | nil => rfl
  | cons c l2 ih =>
    rw [List.flatMap_cons, List.map_append]
    by_cases hsafe : urlSafeChar c
    · have hne : c ≠ '+' := by
        rintro rfl
        exact absurd hsafe (by decide)
      have hne2 : c ≠ '%' := by
        rintro rfl
        exact absurd hsafe (by decide)
      rw [show (quotePlusChar c).map (fun c => if c = '+' then ' ' else c) = [c] from by
        simp [quotePlusChar, hsafe, hne]]
      rw [List.singleton_append, pctItems_cons_lit c hne2]
      rw [show decodeItems (PctItem.lit c :: pctItems (splitOnChar '%'
        ((l2.flatMap quotePlusChar).map (fun c => if c = '+' then ' ' else c)))) none =
        c :: decodeItems (pctItems (splitOnChar '%'
          ((l2.flatMap quotePlusChar).map (fun c => if c = '+' then ' ' else c)))) none
        from rfl]
      rw [ih]
    · by_cases hsp : c = ' '
      · subst hsp
        rw [show (quotePlusChar ' ').map (fun c => if c = '+' then ' ' else c) = [' ']
          from by decide]
        rw [List.singleton_append, pctItems_cons_lit ' ' (by decide)]
        rw [show decodeItems (PctItem.lit ' ' :: pctItems (splitOnChar '%'
          ((l2.flatMap quotePlusChar).map (fun c => if c = '+' then ' ' else c)))) none =
          ' ' :: decodeItems (pctItems (splitOnChar '%'
            ((l2.flatMap quotePlusChar).map (fun c => if c = '+' then ' ' else c)))) none
          from rfl]
        rw [ih]
      · have hchunk : quotePlusChar c = (utf8EncodeChar c).flatMap pctEncodeByte := by
          simp [quotePlusChar, hsafe, hsp]
        have hplus : ∀ d ∈ (utf8EncodeChar c).flatMap pctEncodeByte, d ≠ '+' := by
          intro d hd
          rw [List.mem_flatMap] at hd
          obtain ⟨b, hb, hdb⟩ := hd
          have hblt := utf8EncodeChar_lt c b hb
          simp only [pctEncodeByte, List.mem_cons, List.not_mem_nil, or_false] at hdb
          rcases hdb with rfl | rfl | rfl
          · decide
          · exact (hexDigitU_facts (b / 16) (by omega)).2.2
          · exact (hexDigitU_facts (b % 16) (by omega)).2.2
        have hmapid : ((utf8EncodeChar c).flatMap pctEncodeByte).map
            (fun c => if c = '+' then ' ' else c) =
            (utf8EncodeChar c).flatMap pctEncodeByte := by
          have hpt : ∀ d ∈ (utf8EncodeChar c).flatMap pctEncodeByte,
              (if d = '+' then ' ' else d) = id d := by
            intro d hd
            simp [hplus d hd]
          rw [List.map_congr_left hpt, List.map_id]
        rw [hchunk, hmapid, pctItems_escape_run _ (utf8EncodeChar_lt c),
          decodeItems_byte_run, utf8Run_encodeChar]
        simp only [List.singleton_append]
        rw [ih]

/-- The quoting used by `urlencode` round-trips through `unquote_plus`. -/
theorem unquote_plus_quote_plus (s : String) : unquote_plus (quote_plus s) = s := by
  show String.mk (decodeItems (pctItems (splitOnChar '%'
    ((s.data.flatMap quotePlusChar).map (fun c => if c = '+' then ' ' else c)))) none) = s
  rw [unquote_quote_chars, string_mk_data]

/-- No index is found exactly when no element satisfies the test. -/
theorem findCharIdx_eq_none (p : Char → Bool) (l : List Char) :
    findCharIdx p l = none ↔ ∀ c ∈ l, p c = false := by
  induction l with
  | nil => simp [findCharIdx]
  | cons c t ih =>
    simp only [findCharIdx]
    by_cases hc : p c = true
    · simp [hc]
    · have hc' : p c = false := by simpa using hc
      rw [if_neg hc]
      rcases hf : findCharIdx p t with _ | j
      · simp only [List.mem_cons]
        constructor
        · intro _ d hd
          rcases hd with rfl | hd
          · exact hc'
          · exact ih.mp hf d hd
        · intro _
          trivial
      · simp only [List.mem_cons]
        constructor
        · intro h
          exact absurd h (by simp)
        · intro hall
          have := ih.mpr (fun d hd => hall d (Or.inr hd))
          rw [this] at hf
          exact absurd hf (by simp)

/-- A found index is inside the list. -/
theorem findCharIdx_lt_length (p : Char → Bool) (l : List Char) (i : Nat)
    (h : findCharIdx p l = some i) : i < l.length := by
  induction l generalizing i with
  | nil => simp [findCharIdx] at h
  | cons c t ih =>
    by_cases hc : p c = true
    · simp only [findCharIdx, if_pos hc] at h
      cases h
      simp
    · rcases hf : findCharIdx p t with _ | j
      · rw [findCharIdx, if_neg hc, hf] at h
        exact absurd h (by simp)
      · rw [findCharIdx, if_neg hc, hf] at h
        cases h
        have := ih j hf
        simp only [List.length_cons]
        omega

/-- The element at a found index satisfies the test, everything before it
does not. -/
theorem findCharIdx_spec (p : Char → Bool) (l : List Char) (i : Nat)
    (h : findCharIdx p l = some i) :
    (∀ c ∈ l.take i, p c = false) ∧
      ∃ c, l.drop i = c :: l.drop (i + 1) ∧ p c = true := by
  induction l generalizing i with
  | nil => simp [findCharIdx] at h
  | cons c t ih =>
    by_cases hc : p c = true
    · simp only [findCharIdx, if_pos hc] at h
      cases h
      exact ⟨by simp, c, by simp, hc⟩
    · rcases hf : findCharIdx p t with _ | j
      · rw [findCharIdx, if_neg hc, hf] at h
        exact absurd h (by simp)
      · rw [findCharIdx, if_neg hc, hf] at h
        cases h
        obtain ⟨h1, d, h2, h3⟩ := ih j hf
        refine ⟨?_, d, ?_, h3⟩
        · intro x hx
          simp only [List.take_succ_cons, List.mem_cons] at hx
          rcases hx with rfl | hx
          · simpa using hc
          · exact h1 x hx
        · simpa using h2

/-- Search in the left part of an append wins. -/
theorem findCharIdx_append_left (p : Char → Bool) (a b : List Char) (i : Nat)
    (h : findCharIdx p a = some i) : findCharIdx p (a ++ b) = some i := by
  induction a generalizing i with
  | nil => simp [findCharIdx] at h
  | cons c t ih =>
    by_cases hc : p c = true
    · simp only [findCharIdx, if_pos hc] at h ⊢
      exact h
    · rcases hf : findCharIdx p t with _ | j
      · rw [findCharIdx, if_neg hc, hf] at h
        exact absurd h (by simp)
      · rw [findCharIdx, if_neg hc, hf] at h
        cases h
        rw [List.cons_append, findCharIdx, if_neg hc, ih j hf]

/-- Search skips a left part with no matching element. -/
theorem findCharIdx_append_none (p : Char → Bool) (a b : List Char)
    (h : findCharIdx p a = none) :
    findCharIdx p (a ++ b) = (findCharIdx p b).map (a.length + ·) := by
  induction a with
  | nil => simp
  | cons c t ih =>
    have hc : p c = false := (findCharIdx_eq_none p (c :: t)).mp h c (by simp)
    have hcn : ¬p c = true := by simp [hc]
    have ht : findCharIdx p t = none := by
      rcases hf : findCharIdx p t with _ | j
      · rfl
      · rw [findCharIdx, if_neg hcn, hf] at h
        exact absurd h (by simp)
    rw [List.cons_append, findCharIdx, if_neg hcn, ih ht]
    rcases findCharIdx p b with _ | j <;> simp <;> omega

/-- Splitting on a character absent from the list. -/
theorem splitFirstChar_no_sep (sep : Char) (l : List Char)
    (h : ∀ c ∈ l, c ≠ sep) : splitFirstChar sep l = (l, none) := by
  rw [splitFirstChar, (findCharIdx_eq_none _ l).mpr (by
    intro c hc
    simp [h c hc])]

/-- Splitting around an explicit first separator. -/
theorem splitFirstChar_append (sep : Char) (a b : List Char)
    (h : ∀ c ∈ a, c ≠ sep) : splitFirstChar sep (a ++ sep :: b) = (a, some b) := by
  have hnone : findCharIdx (fun c => c = sep) a = none :=
    (findCharIdx_eq_none _ a).mpr (by intro c hc; simp [h c hc])
  have hb : findCharIdx (fun c => c = sep) (sep :: b) = some 0 := by
    simp [findCharIdx]
  rw [splitFirstChar, findCharIdx_append_none _ _ _ hnone, hb]
  have hdrop : (a ++ sep :: b).drop (a.length + 1) = b := by
    rw [← List.drop_drop, List.drop_left a (sep :: b)]
    rfl
  simp [List.take_left a (sep :: b), hdrop]

/-- A head kept by a filter stays the head. -/
theorem head?_filter_keep (q : Char → Bool) (l : List Char) (c : Char)
    (hh : l.head? = some c) (hq : q c = true) : (l.filter q).head? = some c := by
  cases l with
  | nil => simp at hh
  | cons d t =>
    simp only [List.head?_cons, Option.some.injEq] at hh
    subst hh
    simp [List.filter_cons, hq]

/-- Dropping nothing when the head already fails the test. -/
theorem dropWhile_eq_self_of_head (p : Char → Bool) (l : List Char)
    (h : ∀ c, l.head? = some c → p c = false) : l.dropWhile p = l := by
  cases l with
  | nil => rfl
  | cons c t => simp [List.dropWhile_cons, h c rfl]

/-- A double-ended strip that touches nothing. -/
theorem stripWhile_id (p : Char → Bool) (l : List Char)
    (hh : ∀ c, l.head? = some c → p c = false)
    (hl : ∀ c, l.getLast? = some c → p c = false) : stripWhile p l = l := by
  rw [stripWhile, dropWhile_eq_self_of_head p l hh]
  rw [dropWhile_eq_self_of_head p l.reverse (by
    intro c hc
    exact hl c (by rwa [← List.head?_reverse]))]
  exact List.reverse_reverse l

/-- The head surviving a strip fails the strip test. -/
theorem stripWhile_head?_false (p : Char → Bool) (l : List Char) (c : Char)
    (h : (stripWhile p l).head? = some c) : p c = false := by
  have hpre : stripWhile p l <+: l.dropWhile p := by
    rw [stripWhile]
    have hsuf : (l.dropWhile p).reverse.dropWhile p <:+ (l.dropWhile p).reverse :=
      List.dropWhile_suffix p
    have := List.reverse_prefix.mpr hsuf
    simpa using this
  obtain ⟨t, ht⟩ := hpre
  have hne : stripWhile p l ≠ [] := by
    intro hnil
    rw [hnil] at h
    simp at h
  have hhead : (l.dropWhile p).head? = some c := by
    rw [← ht, List.head?_append]
    rw [Option.or_of_isSome (by simp [h])]
    exact h
  have := List.head?_dropWhile_not p l
  rw [hhead] at this
  exact this

/-- Scheme characters are not colons. -/
theorem schemeChars_ne_colon {c : Char} (h : schemeChars c = true) : c ≠ ':' := by
  rintro rfl
  exact absurd h (by decide)

/-- A canonical scheme followed by a colon is recognised unchanged. -/
theorem splitScheme_canonical (S R : List Char)
    (h0 : ∃ c0 r, S = c0 :: r ∧ isAsciiAlpha c0 = true)
    (hall : ∀ c ∈ S, schemeChars c = true)
    (hlow : S.map asciiLowerChar = S) :
    splitScheme (S ++ ':' :: R) = some (S, R) := by
  have hnone : findCharIdx (fun c => c = ':') S = none :=
    (findCharIdx_eq_none _ S).mpr (by
      intro c hc
      simp [schemeChars_ne_colon (hall c hc)])
  have hfind : findCharIdx (fun c => c = ':') (S ++ ':' :: R) = some S.length := by
    rw [findCharIdx_append_none _ _ _ hnone]
    simp [findCharIdx]
  simp only [splitScheme, hfind, List.take_left]
  rw [if_pos ?hc]
  case hc =>
    obtain ⟨c0, r, hS, halpha⟩ := h0
    refine ⟨?_, ?_, ?_⟩
    · rw [hS]
      simp
    · rw [hS]
      simpa using halpha
    · simp only [List.all_eq_true]
      exact hall
  have hdrop : (S ++ ':' :: R).drop (S.length + 1) = R := by
    rw [← List.drop_drop, List.drop_left]
    rfl
  rw [hdrop, hlow]

/-- No colon at all means no scheme. -/
theorem splitScheme_none_of_no_colon (l : List Char) (h : ∀ c ∈ l, c ≠ ':') :
    splitScheme l = none := by
  rw [splitScheme, (findCharIdx_eq_none _ l).mpr (by
    intro c hc
    simp [h c hc])]

/-- A leading slash blocks scheme recognition. -/
theorem splitScheme_none_head_slash (l : List Char) (h : l.head? = some '/') :
    splitScheme l = none := by
  cases l with
  | nil => simp at h
  | cons c t =>
    simp only [List.head?_cons, Option.some.injEq] at h
    subst h
    rcases hf : findCharIdx (fun c => c = ':') ('/' :: t) with _ | i
    · rw [splitScheme, hf]
    · simp only [splitScheme, hf]
      cases i with
      | zero => simp
      | succ j =>
        rw [if_neg]
        simp only [List.take_succ_cons]
        rintro ⟨-, h2, -⟩
        exact absurd h2 (by decide)

/-- Appending colon-free text to a scheme-free list keeps it scheme-free. -/
theorem splitScheme_none_append (a b : List Char) (ha : splitScheme a = none)
    (hb : ∀ c ∈ b, c ≠ ':') : splitScheme (a ++ b) = none := by
  rcases hf : findCharIdx (fun c => c = ':') a with _ | i
  · rw [splitScheme, findCharIdx_append_none _ _ _ hf]
    rw [(findCharIdx_eq_none _ b).mpr (by intro c hc; simp [hb c hc])]
    rfl
  · have hlt := findCharIdx_lt_length _ _ _ hf
    have htake : (a ++ b).take i = a.take i := by
      rw [List.take_append_eq_append_take, show i - a.length = 0 from by omega]
      simp
    simp only [splitScheme, findCharIdx_append_left _ _ b _ hf, htake]
    simp only [splitScheme, hf] at ha
    by_cases hcond : 0 < i ∧ (match a.take i with
        | c0 :: _ => isAsciiAlpha c0
        | [] => false) = true ∧ (a.take i).all schemeChars
    · rw [if_pos hcond] at ha
      exact absurd ha (by simp)
    · rw [if_neg hcond]

/-- A prefix of a scheme-free list is scheme-free. -/
theorem splitScheme_none_prefix (a b : List Char)
    (h : splitScheme (a ++ b) = none) : splitScheme a = none := by
  rcases hf : findCharIdx (fun c => c = ':') a with _ | i
  · rw [splitScheme, hf]
  · have hlt := findCharIdx_lt_length _ _ _ hf
    have htake : (a ++ b).take i = a.take i := by
      rw [List.take_append_eq_append_take, show i - a.length = 0 from by omega]
      simp
    simp only [splitScheme, findCharIdx_append_left _ _ b _ hf, htake] at h
    simp only [splitScheme, hf]
    by_cases hcond : 0 < i ∧ (match a.take i with
        | c0 :: _ => isAsciiAlpha c0
        | [] => false) = true ∧ (a.take i).all schemeChars
    · rw [if_pos hcond] at h
      exact absurd h (by simp)
    · rw [if_neg hcond]

/-- Characters of a quoted value: never `&`, `#`, `:', nor removable
whitespace. -/
theorem quote_plus_char_facts (f : String) :
    ∀ d ∈ (quote_plus f).data, d ≠ '&' ∧ d ≠ '#' ∧ d ≠ ':' ∧ d ≠ '=' ∧
      ¬(d = '\t' ∨ d = '\r' ∨ d = '\n') := by
  intro d hd
  rw [show (quote_plus f).data = f.data.flatMap quotePlusChar from rfl,
    List.mem_flatMap] at hd
  obtain ⟨c, _, hdc⟩ := hd
  rw [quotePlusChar] at hdc
  by_cases hsafe : urlSafeChar c
  · rw [if_pos hsafe, List.mem_singleton] at hdc
    subst hdc
    refine ⟨?_, ?_, ?_, ?_, ?_⟩ <;> first
      | (rintro rfl; exact absurd hsafe (by decide))
      | (rintro (rfl | rfl | rfl) <;> exact absurd hsafe (by decide))
  · rw [if_neg hsafe] at hdc
    by_cases hsp : c = ' '
    · rw [if_pos hsp, List.mem_singleton] at hdc
      subst hdc
      refine ⟨by decide, by decide, by decide, by decide, by decide⟩
    · rw [if_neg hsp, List.mem_flatMap] at hdc
      obtain ⟨b, hb, hdb⟩ := hdc
      have hblt := utf8EncodeChar_lt c b hb
      simp only [pctEncodeByte, List.mem_cons, List.not_mem_nil, or_false] at hdb
      have h16a : b / 16 < 16 := by omega
      have h16b : b % 16 < 16 := by omega
      rcases hdb with rfl | rfl | rfl
      · refine ⟨by decide, by decide, by decide, by decide, by decide⟩
      · revert h16a
        generalize b / 16 = v
        revert v
        decide
      · revert h16b
        generalize b % 16 = v
        revert v
        decide

/-- Char order transfers to code points. -/
theorem char_le_toNat {a b : Char} (h : a ≤ b) : a.toNat ≤ b.toNat := h

/-- A netloc-delimiter head stops the netloc scan. -/
theorem takeWhile_not_delim_stop (x : List Char) (c : Char) (hc : isNetlocDelim c = true) :
    (c :: x).takeWhile (fun d => !isNetlocDelim d) = [] := by
  simp [List.takeWhile_cons, hc]

/-- A netloc-delimiter head keeps the remainder whole. -/
theorem dropWhile_not_delim_stop (x : List Char) (c : Char) (hc : isNetlocDelim c = true) :
    (c :: x).dropWhile (fun d => !isNetlocDelim d) = c :: x := by
  simp [List.dropWhile_cons, hc]

/-- Re-splitting an unsplit URL of the `//netloc` form. -/
theorem urlsplitCore_form_netloc (S N P Q : List Char)
    (hS : S = [] ∨
      ((∃ c0 rest, S = c0 :: rest ∧ isAsciiAlpha c0 = true) ∧
        (∀ c ∈ S, schemeChars c = true) ∧ S.map asciiLowerChar = S))
    (hNd : ∀ c ∈ N, isNetlocDelim c = false)
    (hNb : netlocBracketsOk N = true)
    (hPhead : P = [] ∨ P.head? = some '/')
    (hPqf : ∀ c ∈ P, c ≠ '?' ∧ c ≠ '#')
    (hQ : ∀ d ∈ Q, d ≠ '#') :
    urlsplitCore ((if S ≠ [] then S ++ ':' :: ('/' :: '/' :: (N ++ P))
        else ('/' :: '/' :: (N ++ P))) ++ '?' :: Q) =
      Except.ok (S, N, P, Q, []) := by
  have hNall : ∀ a ∈ N, (!isNetlocDelim a) = true := by
    intro a ha
    simp [hNd a ha]
  have hPtail : (P ++ '?' :: Q).takeWhile (fun d => !isNetlocDelim d) = [] ∧
      (P ++ '?' :: Q).dropWhile (fun d => !isNetlocDelim d) = P ++ '?' :: Q := by
    rcases hPhead with rfl | hph
    · rw [List.nil_append]
      exact ⟨takeWhile_not_delim_stop _ _ (by decide),
        dropWhile_not_delim_stop _ _ (by decide)⟩
    · cases P with
      | nil => simp at hph
      | cons c t =>
        simp only [List.head?_cons, Option.some.injEq] at hph
        subst hph
        rw [List.cons_append]
        exact ⟨takeWhile_not_delim_stop _ _ (by decide),
          dropWhile_not_delim_stop _ _ (by decide)⟩
  have htake : (N ++ (P ++ '?' :: Q)).takeWhile (fun d => !isNetlocDelim d) = N := by
    rw [List.takeWhile_append_of_pos hNall, hPtail.1, List.append_nil]
  have hdrop : (N ++ (P ++ '?' :: Q)).dropWhile (fun d => !isNetlocDelim d) =
      P ++ '?' :: Q := by
    rw [List.dropWhile_append_of_pos hNall, hPtail.2]
  have hfrag : splitFirstChar '#' (P ++ '?' :: Q) = (P ++ '?' :: Q, none) := by
    apply splitFirstChar_no_sep
    intro c hc
    rcases List.mem_append.mp hc with hc | hc
    · exact (hPqf c hc).2
    · rcases List.mem_cons.mp hc with rfl | hc
      · decide
      · exact hQ c hc
  have hquery : splitFirstChar '?' (P ++ '?' :: Q) = (P, some Q) :=
    splitFirstChar_append '?' P Q (fun c hc => (hPqf c hc).1)
  rcases hS with rfl | ⟨h0, hall, hlow⟩
  · rw [if_neg (by simp)]
    have hscheme : splitScheme (('/' :: '/' :: (N ++ P)) ++ '?' :: Q) = none := by
      apply splitScheme_none_head_slash
      rfl
    simp only [List.cons_append, List.append_assoc] at hscheme
    simp [urlsplitCore, hscheme, htake, hdrop, hNb, hfrag, hquery]
  · have hSne : S ≠ [] := by
      obtain ⟨c0, r, rfl, -⟩ := h0
      simp
    rw [if_pos hSne, List.append_assoc]
    have hscheme := splitScheme_canonical S (('/' :: '/' :: (N ++ P)) ++ '?' :: Q)
      h0 hall hlow
    simp only [List.cons_append, List.append_assoc] at hscheme
    simp [urlsplitCore, hscheme, htake, hdrop, hNb, hfrag, hquery]

/-- Re-splitting an unsplit URL of the plain-path form. -/
theorem urlsplitCore_form_plain (S P Q : List Char)
    (hS : ((∃ c0 rest, S = c0 :: rest ∧ isAsciiAlpha c0 = true) ∧
        (∀ c ∈ S, schemeChars c = true) ∧ S.map asciiLowerChar = S) ∨
      (S = [] ∧ splitScheme P = none))
    (hP2 : P.take 2 ≠ ['/', '/'])
    (hPqf : ∀ c ∈ P, c ≠ '?' ∧ c ≠ '#')
    (hQ : ∀ d ∈ Q, d ≠ '#' ∧ d ≠ ':') :
    urlsplitCore ((if S ≠ [] then S ++ ':' :: P else P) ++ '?' :: Q) =
      Except.ok (S, [], P, Q, []) := by
  have hnoNL : (P ++ '?' :: Q).take 2 ≠ ['/', '/'] := by
    cases P with
    | nil => simp
    | cons c1 t =>
      cases t with
      | nil => simp
      | cons c2 t2 =>
        intro hcontra
        apply hP2
        simpa using hcontra
  have hfrag : splitFirstChar '#' (P ++ '?' :: Q) = (P ++ '?' :: Q, none) := by
    apply splitFirstChar_no_sep
    intro c hc
    rcases List.mem_append.mp hc with hc | hc
    · exact (hPqf c hc).2
    · rcases List.mem_cons.mp hc with rfl | hc
      · decide
      · exact (hQ c hc).1
  have hquery : splitFirstChar '?' (P ++ '?' :: Q) = (P, some Q) :=
    splitFirstChar_append '?' P Q (fun c hc => (hPqf c hc).1)
  rcases hS with ⟨h0, hall, hlow⟩ | ⟨rfl, hPs⟩
  · have hSne : S ≠ [] := by
      obtain ⟨c0, r, rfl, -⟩ := h0
      simp
    rw [if_pos hSne, List.append_assoc]
    have hscheme := splitScheme_canonical S (P ++ '?' :: Q) h0 hall hlow
    simp [urlsplitCore, hscheme, hnoNL, hfrag, hquery, netlocBracketsOk]
  · rw [if_neg (by simp)]
    have hscheme : splitScheme (P ++ '?' :: Q) = none := by
      apply splitScheme_none_append P _ hPs
      intro c hc
      rcases List.mem_cons.mp hc with rfl | hc
      · decide
      · exact (hQ c hc).2
    simp [urlsplitCore, hscheme, hnoNL, hfrag, hquery, netlocBracketsOk]

/-- The head of a nonempty take is the head of the list. -/
theorem head?_take (l : List Char) (m : Nat) (c : Char)
    (h : (l.take m).head? = some c) : l.head? = some c := by
  cases l with
  | nil => simp at h
  | cons d t =>
    cases m with
    | zero => simp at h
    | succ k => simpa using h

/-- A list whose head fails the test has an empty takeWhile. -/
theorem takeWhile_nil_of_head (p : Char → Bool) (l : List Char)
    (h : ∀ c, l.head? = some c → p c = false) : l.takeWhile p = [] := by
  cases l with
  | nil => rfl
  | cons c t => simp [List.takeWhile_cons, h c rfl]

/-- A trailing element failing the test does not change a takeWhile. -/
theorem takeWhile_append_last_not (p : Char → Bool) (a : List Char) (c : Char)
    (hc : p c = false) : (a ++ [c]).takeWhile p = a.takeWhile p := by
  induction a with
  | nil => simp [List.takeWhile_cons, hc]
  | cons d t ih =>
    by_cases hd : p d = true
    · simp only [List.cons_append, List.takeWhile_cons, if_pos hd, ih]
    · simp only [List.cons_append, List.takeWhile_cons, if_neg hd]

/-- The first component of a first-character split is a prefix. -/
theorem splitFirstChar_fst_prefix (sep : Char) (l : List Char) :
    (splitFirstChar sep l).1 <+: l := by
  rcases hf : findCharIdx (fun c => c = sep) l with _ | i
  · simp [splitFirstChar, hf]
  · simp only [splitFirstChar, hf]
    exact List.take_prefix i l

/-- The first component of a first-character split avoids the separator. -/
theorem splitFirstChar_fst_no_sep (sep : Char) (l : List Char) :
    ∀ c ∈ (splitFirstChar sep l).1, c ≠ sep := by
  rcases hf : findCharIdx (fun c => c = sep) l with _ | i
  · intro c hc
    simp only [splitFirstChar, hf] at hc
    have := (findCharIdx_eq_none _ l).mp hf c hc
    simpa using this
  · intro c hc
    simp only [splitFirstChar, hf] at hc
    have := (findCharIdx_spec _ l i hf).1 c hc
    simpa using this

/-- Code points below the surrogate range survive `Char.ofNat`. -/
theorem toNat_charOfNat (n : Nat) (h : n < 0xD800) : (Char.ofNat n).toNat = n := by
  have hv : Nat.isValidChar n := Or.inl h
  unfold Char.ofNat
  rw [dif_pos hv]
  rfl

/-- Code-point order transfers back to characters. -/
theorem char_le_of_toNat {a b : Char} (h : a.toNat ≤ b.toNat) : a ≤ b := h

/-- ASCII letters sit strictly above the control/space range. -/
theorem isAsciiAlpha_gt_space {c : Char} (h : isAsciiAlpha c = true) :
    0x20 < c.toNat := by
  simp only [isAsciiAlpha, Bool.decide_or, Bool.or_eq_true, decide_eq_true_eq] at h
  rcases h with ⟨h1, -⟩ | ⟨h1, -⟩
  · have := char_le_toNat h1
    have ha : Char.toNat 'a' = 97 := rfl
    omega
  · have := char_le_toNat h1
    have ha : Char.toNat 'A' = 65 := rfl
    omega

/-- Lower-casing keeps letters letters. -/
theorem asciiLowerChar_alpha {c : Char} (h : isAsciiAlpha c = true) :
    isAsciiAlpha (asciiLowerChar c) = true := by
  rw [asciiLowerChar]
  by_cases hu : 'A' ≤ c ∧ c ≤ 'Z'
  · rw [if_pos hu]
    have h1 := char_le_toNat hu.1
    have h2 := char_le_toNat hu.2
    have hA : Char.toNat 'A' = 65 := rfl
    have hZ : Char.toNat 'Z' = 90 := rfl
    have ht : (Char.ofNat (c.toNat + 32)).toNat = c.toNat + 32 :=
      toNat_charOfNat _ (by omega)
    simp only [isAsciiAlpha, Bool.decide_or, Bool.or_eq_true, decide_eq_true_eq]
    refine Or.inl ⟨char_le_of_toNat ?_, char_le_of_toNat ?_⟩
    · rw [ht]
      show 97 ≤ c.toNat + 32
      omega
    · rw [show Char.toNat 'z' = 122 from rfl, ht]
      omega
  · rw [if_neg hu]
    exact h

/-- Characters outside the upper-case range are fixed by lower-casing. -/
theorem asciiLowerChar_eq_self {c : Char} (h : ¬('A' ≤ c ∧ c ≤ 'Z')) :
    asciiLowerChar c = c := by
  rw [asciiLowerChar, if_neg h]

/-- Lower-casing is idempotent on characters. -/
theorem asciiLowerChar_idem (c : Char) :
    asciiLowerChar (asciiLowerChar c) = asciiLowerChar c := by
  by_cases hu : 'A' ≤ c ∧ c ≤ 'Z'
  · have h1 := char_le_toNat hu.1
    have h2 := char_le_toNat hu.2
    have hA : Char.toNat 'A' = 65 := rfl
    have hZ : Char.toNat 'Z' = 90 := rfl
    have ht : (Char.ofNat (c.toNat + 32)).toNat = c.toNat + 32 :=
      toNat_charOfNat _ (by omega)
    have hinner : asciiLowerChar c = Char.ofNat (c.toNat + 32) := by
      rw [asciiLowerChar, if_pos hu]
    rw [hinner]
    apply asciiLowerChar_eq_self
    rintro ⟨-, hle⟩
    have := char_le_toNat hle
    rw [ht, hZ] at this
    omega
  · rw [asciiLowerChar_eq_self hu, asciiLowerChar_eq_self hu]

/-- Lower-casing keeps scheme characters scheme characters. -/
theorem schemeChars_lower {c : Char} (h : schemeChars c = true) :
    schemeChars (asciiLowerChar c) = true := by
  by_cases halpha : isAsciiAlpha c = true
  · have := asciiLowerChar_alpha halpha
    simp only [schemeChars, Bool.decide_or, Bool.or_eq_true]
    left
    simpa using this
  · have hu : ¬('A' ≤ c ∧ c ≤ 'Z') := by
      intro hu
      apply halpha
      simp only [isAsciiAlpha, Bool.decide_or, Bool.or_eq_true, decide_eq_true_eq]
      exact Or.inr hu
    rw [asciiLowerChar_eq_self hu]
    exact h

/-- Scheme characters are never stripped control characters. -/
theorem schemeChars_clean {c : Char} (h : schemeChars c = true) :
    ¬(c = '\t' ∨ c = '\r' ∨ c = '\n') := by
  rintro (rfl | rfl | rfl) <;> exact absurd h (by decide)

/-- Netloc delimiters are printable and not removable whitespace. -/
theorem isNetlocDelim_facts {c : Char} (h : isNetlocDelim c = true) :
    0x20 < c.toNat ∧ ¬(c = '\t' ∨ c = '\r' ∨ c = '\n') := by
  simp only [isNetlocDelim, Bool.decide_or, Bool.or_eq_true, decide_eq_true_eq] at h
  rcases h with rfl | rfl | rfl <;> exact ⟨by decide, by decide⟩

/-- What a successful scheme split guarantees about its output. -/
theorem splitScheme_some_inv (l S R : List Char) (h : splitScheme l = some (S, R)) :
    (∃ c0 rest, S = c0 :: rest ∧ isAsciiAlpha c0 = true) ∧
      (∀ c ∈ S, schemeChars c = true) ∧ S.map asciiLowerChar = S ∧
      ∃ i, R = l.drop (i + 1) := by
  rcases hf : findCharIdx (fun c => c = ':') l with _ | i
  · simp [splitScheme, hf] at h
  · simp only [splitScheme, hf] at h
    split at h
    case isTrue hcond =>
      simp only [Option.some.injEq, Prod.mk.injEq] at h
      obtain ⟨hS, hR⟩ := h
      have hall : ∀ c ∈ l.take i, schemeChars c = true := by
        have := hcond.2.2
        simpa [List.all_eq_true] using this
      refine ⟨?_, ?_, ?_, i, hR.symm⟩
      · cases htake : l.take i with
        | nil =>
          rw [htake] at hcond
          exact absurd hcond.2.1 (by simp)
        | cons c0 t =>
          rw [htake] at hcond
          refine ⟨asciiLowerChar c0, t.map asciiLowerChar, ?_, ?_⟩
          · rw [← hS, htake]
            rfl
          · exact asciiLowerChar_alpha hcond.2.1
      · intro c hc
        rw [← hS, List.mem_map] at hc
        obtain ⟨d, hd, rfl⟩ := hc
        exact schemeChars_lower (hall d hd)
      · rw [← hS, List.map_map]
        exact List.map_congr_left (fun d _ => asciiLowerChar_idem d)
    case isFalse hcond =>
      simp at h

/-- Components produced by `urlsplit` on a cleaned character list satisfy
the re-parsing invariants. -/
theorem urlsplitCore_inv (l S N P Q F : List Char)
    (hclean : ∀ c ∈ l, ¬(c = '\t' ∨ c = '\r' ∨ c = '\n'))
    (hhead : ∀ c, l.head? = some c → 0x20 < c.toNat)
    (h : urlsplitCore l = Except.ok (S, N, P, Q, F)) :
    SplitInv S N P := by
  rcases hs : splitScheme l with _ | ⟨S0, R⟩
  all_goals simp only [urlsplitCore, hs] at h
  · -- no scheme: the remainder is the whole input
    by_cases hNL : l.take 2 = ['/', '/']
    · rw [if_pos hNL, if_pos hNL] at h
      by_cases hbr :
          netlocBracketsOk ((l.drop 2).takeWhile (fun c => !isNetlocDelim c)) = true
      · rw [if_pos hbr] at h
        simp only [Except.ok.injEq, Prod.mk.injEq] at h
        obtain ⟨rfl, rfl, rfl, rfl, rfl⟩ := h
        set rest2 := (l.drop 2).dropWhile (fun c => !isNetlocDelim c) with hrest2
        set fr1 := (splitFirstChar '#' rest2).1 with hfr1
        have hPfr : (splitFirstChar '?' fr1).1 <+: fr1 := splitFirstChar_fst_prefix _ _
        have hfrR : fr1 <+: rest2 := splitFirstChar_fst_prefix _ _
        have hPrest : (splitFirstChar '?' fr1).1 <+: rest2 := hPfr.trans hfrR
        have hrest2l : ∀ c ∈ rest2, c ∈ l := by
          intro c hc
          have h1 : c ∈ l.drop 2 := (List.dropWhile_suffix _).subset hc
          exact List.drop_subset 2 l h1
        have hPhead_delim : ∀ c, rest2.head? = some c → isNetlocDelim c = true := by
          intro c hc
          have := List.head?_dropWhile_not (fun c => !isNetlocDelim c) (l.drop 2)
          rw [← hrest2, hc] at this
          simpa using this
        refine
          { scheme_ok := Or.inl rfl
            netloc_delim := ?_
            netloc_brackets := hbr
            netloc_clean := ?_
            path_clean := ?_
            path_no_qf := ?_
            netloc_path := ?_
            path_head := ?_
            path_scheme := ?_ }
        · intro c hc
          have := List.mem_takeWhile_imp hc
          simpa using this
        · intro c hc
          apply hclean
          have h1 : c ∈ l.drop 2 := (List.takeWhile_prefix _).subset hc
          exact List.drop_subset 2 l h1
        · intro c hc
          exact hclean c (hrest2l c (hPrest.subset hc))
        · intro c hc
          exact ⟨splitFirstChar_fst_no_sep '?' fr1 c hc,
            splitFirstChar_fst_no_sep '#' rest2 c (hPfr.subset hc)⟩
        · intro _
          cases hP : (splitFirstChar '?' fr1).1 with
          | nil => exact Or.inl rfl
          | cons c t =>
            right
            obtain ⟨s, hps⟩ := hPrest
            rw [hP] at hps
            have hhd : rest2.head? = some c := by
              rw [← hps]
              rfl
            have hdelim := hPhead_delim c hhd
            have hnq : c ≠ '?' ∧ c ≠ '#' :=
              ⟨splitFirstChar_fst_no_sep '?' fr1 c (by rw [hP]; exact List.mem_cons_self c t),
                splitFirstChar_fst_no_sep '#' rest2 c
                  (hPfr.subset (by rw [hP]; exact List.mem_cons_self c t))⟩
            simp only [isNetlocDelim, Bool.decide_or, Bool.or_eq_true,
              decide_eq_true_eq] at hdelim
            rcases hdelim with rfl | rfl | rfl
            · rfl
            · exact absurd rfl hnq.1
            · exact absurd rfl hnq.2
        · intro _ _ c hPhead
          cases hP : (splitFirstChar '?' fr1).1 with
          | nil =>
            rw [hP] at hPhead
            exact absurd hPhead (by simp)
          | cons c0 t =>
            rw [hP] at hPhead
            simp only [List.head?_cons, Option.some.injEq] at hPhead
            subst hPhead
            obtain ⟨s, hps⟩ := hPrest
            rw [hP] at hps
            have hhd : rest2.head? = some c0 := by
              rw [← hps]
              rfl
            exact (isNetlocDelim_facts (hPhead_delim c0 hhd)).1
        · intro _ _
          cases hP : (splitFirstChar '?' fr1).1 with
          | nil => rfl
          | cons c t =>
            obtain ⟨s, hps⟩ := hPrest
            rw [hP] at hps
            have hhd : rest2.head? = some c := by
              rw [← hps]
              rfl
            have hdelim := hPhead_delim c hhd
            have hnq : c ≠ '?' ∧ c ≠ '#' :=
              ⟨splitFirstChar_fst_no_sep '?' fr1 c (by rw [hP]; exact List.mem_cons_self c t),
                splitFirstChar_fst_no_sep '#' rest2 c
                  (hPfr.subset (by rw [hP]; exact List.mem_cons_self c t))⟩
            simp only [isNetlocDelim, Bool.decide_or, Bool.or_eq_true,
              decide_eq_true_eq] at hdelim
            rcases hdelim with rfl | rfl | rfl
            · rw [← hP]
              apply splitScheme_none_head_slash
              rw [hP]
              rfl
            · exact absurd rfl hnq.1
            · exact absurd rfl hnq.2
      · rw [if_neg hbr] at h
        simp at h
    · rw [if_neg hNL, if_neg hNL] at h
      by_cases hbr : netlocBracketsOk [] = true
      · rw [if_pos hbr] at h
        simp only [Except.ok.injEq, Prod.mk.injEq] at h
        obtain ⟨rfl, rfl, rfl, rfl, rfl⟩ := h
        set fr1 := (splitFirstChar '#' l).1 with hfr1
        have hPfr : (splitFirstChar '?' fr1).1 <+: fr1 := splitFirstChar_fst_prefix _ _
        have hfrR : fr1 <+: l := splitFirstChar_fst_prefix _ _
        have hPrest : (splitFirstChar '?' fr1).1 <+: l := hPfr.trans hfrR
        refine
          { scheme_ok := Or.inl rfl
            netloc_delim := by intro c hc; simp at hc
            netloc_brackets := hbr
            netloc_clean := by intro c hc; simp at hc
            path_clean := ?_
            path_no_qf := ?_
            netloc_path := by intro hne; exact absurd rfl hne
            path_head := ?_
            path_scheme := ?_ }
        · intro c hc
          exact hclean c (hPrest.subset hc)
        · intro c hc
          exact ⟨splitFirstChar_fst_no_sep '?' fr1 c hc,
            splitFirstChar_fst_no_sep '#' l c (hPfr.subset hc)⟩
        · intro _ _ c hPhead
          cases hP : (splitFirstChar '?' fr1).1 with
          | nil =>
            rw [hP] at hPhead
            exact absurd hPhead (by simp)
          | cons c0 t =>
            rw [hP] at hPhead
            simp only [List.head?_cons, Option.some.injEq] at hPhead
            subst hPhead
            obtain ⟨s, hps⟩ := hPrest
            rw [hP] at hps
            apply hhead
            rw [← hps]
            rfl
        · intro _ _
          obtain ⟨s, hps⟩ := hPrest
          exact splitScheme_none_prefix _ s (by rw [hps]; exact hs)
      · rw [if_neg hbr] at h
        simp at h
  · -- scheme recognised
    obtain ⟨hS0a, hS0s, hS0l, i, hRi⟩ := splitScheme_some_inv l S0 R hs
    have hRsub : ∀ c ∈ R, c ∈ l := by
      intro c hc
      rw [hRi] at hc
      exact List.drop_subset _ l hc
    by_cases hNL : R.take 2 = ['/', '/']
    · rw [if_pos hNL, if_pos hNL] at h
      by_cases hbr :
          netlocBracketsOk ((R.drop 2).takeWhile (fun c => !isNetlocDelim c)) = true
      · rw [if_pos hbr] at h
        simp only [Except.ok.injEq, Prod.mk.injEq] at h
        obtain ⟨rfl, rfl, rfl, rfl, rfl⟩ := h
        set rest2 := (R.drop 2).dropWhile (fun c => !isNetlocDelim c) with hrest2
        set fr1 := (splitFirstChar '#' rest2).1 with hfr1
        have hPfr : (splitFirstChar '?' fr1).1 <+: fr1 := splitFirstChar_fst_prefix _ _
        have hfrR : fr1 <+: rest2 := splitFirstChar_fst_prefix _ _
        have hPrest : (splitFirstChar '?' fr1).1 <+: rest2 := hPfr.trans hfrR
        have hrest2l : ∀ c ∈ rest2, c ∈ l := by
          intro c hc
          have h1 : c ∈ R.drop 2 := (List.dropWhile_suffix _).subset hc
          exact hRsub c (List.drop_subset 2 R h1)
        have hPhead_delim : ∀ c, rest2.head? = some c → isNetlocDelim c = true := by
          intro c hc
          have := List.head?_dropWhile_not (fun c => !isNetlocDelim c) (R.drop 2)
          rw [← hrest2, hc] at this
          simpa using this
        have hS0ne : S0 ≠ [] := by
          obtain ⟨c0, r, rfl, -⟩ := hS0a
          simp
        refine
          { scheme_ok := Or.inr ⟨hS0a, hS0s, hS0l⟩
            netloc_delim := ?_
            netloc_brackets := hbr
            netloc_clean := ?_
            path_clean := ?_
            path_no_qf := ?_
            netloc_path := ?_
            path_head := fun hS _ => absurd hS hS0ne
            path_scheme := fun hS _ => absurd hS hS0ne }
        · intro c hc
          have := List.mem_takeWhile_imp hc
          simpa using this
        · intro c hc
          apply hclean
          have h1 : c ∈ R.drop 2 := (List.takeWhile_prefix _).subset hc
          exact hRsub c (List.drop_subset 2 R h1)
        · intro c hc
          exact hclean c (hrest2l c (hPrest.subset hc))
        · intro c hc
          exact ⟨splitFirstChar_fst_no_sep '?' fr1 c hc,
            splitFirstChar_fst_no_sep '#' rest2 c (hPfr.subset hc)⟩
        · intro _
          cases hP : (splitFirstChar '?' fr1).1 with
          | nil => exact Or.inl rfl
          | cons c t =>
            right
            obtain ⟨s, hps⟩ := hPrest
            rw [hP] at hps
            have hhd : rest2.head? = some c := by
              rw [← hps]
              rfl
            have hdelim := hPhead_delim c hhd
            have hnq : c ≠ '?' ∧ c ≠ '#' :=
              ⟨splitFirstChar_fst_no_sep '?' fr1 c (by rw [hP]; exact List.mem_cons_self c t),
                splitFirstChar_fst_no_sep '#' rest2 c
                  (hPfr.subset (by rw [hP]; exact List.mem_cons_self c t))⟩
            simp only [isNetlocDelim, Bool.decide_or, Bool.or_eq_true,
              decide_eq_true_eq] at hdelim
            rcases hdelim with rfl | rfl | rfl
            · rfl
            · exact absurd rfl hnq.1
            · exact absurd rfl hnq.2
      · rw [if_neg hbr] at h
        simp at h
    · rw [if_neg hNL, if_neg hNL] at h
      by_cases hbr : netlocBracketsOk [] = true
      · rw [if_pos hbr] at h
        simp only [Except.ok.injEq, Prod.mk.injEq] at h
        obtain ⟨rfl, rfl, rfl, rfl, rfl⟩ := h
        set fr1 := (splitFirstChar '#' R).1 with hfr1
        have hPfr : (splitFirstChar '?' fr1).1 <+: fr1 := splitFirstChar_fst_prefix _ _
        have hfrR : fr1 <+: R := splitFirstChar_fst_prefix _ _
        have hPrest : (splitFirstChar '?' fr1).1 <+: R := hPfr.trans hfrR
        have hS0ne : S0 ≠ [] := by
          obtain ⟨c0, r, rfl, -⟩ := hS0a
          simp
        refine
          { scheme_ok := Or.inr ⟨hS0a, hS0s, hS0l⟩
            netloc_delim := by intro c hc; simp at hc
            netloc_brackets := hbr
            netloc_clean := by intro c hc; simp at hc
            path_clean := ?_
            path_no_qf := ?_
            netloc_path := by intro hne; exact absurd rfl hne
            path_head := fun hS _ => absurd hS hS0ne
            path_scheme := fun hS _ => absurd hS hS0ne }
        · intro c hc
          exact hclean c (hRsub c (hPrest.subset hc))
        · intro c hc
          exact ⟨splitFirstChar_fst_no_sep '?' fr1 c hc,
            splitFirstChar_fst_no_sep '#' R c (hPfr.subset hc)⟩
      · rw [if_neg hbr] at h
        simp at h

/-- Left-stripping and control-removal is the identity on clean text with
a printable head. -/
theorem stripControlAndRemove_id (l : List Char)
    (hcl : ∀ c ∈ l, ¬(c = '\t' ∨ c = '\r' ∨ c = '\n'))
    (hh : ∀ c, l.head? = some c → 0x20 < c.toNat) :
    stripControlAndRemove l = l := by
  rw [stripControlAndRemove, dropWhile_eq_self_of_head _ _ ?h1]
  case h1 =>
    intro c hc
    have := hh c hc
    simp only [decide_eq_false_iff_not]
    omega
  rw [List.filter_eq_self.mpr]
  intro a ha
  have := hcl a ha
  simpa using this

/-- Components of `urlsplit` on any URL string satisfy the invariants. -/
theorem urlsplitM_inv (u : String) (S N P Q F : List Char)
    (h : urlsplitM u = Except.ok (S, N, P, Q, F)) : SplitInv S N P := by
  refine urlsplitCore_inv (stripControlAndRemove u.data) S N P Q F ?_ ?_ h
  · intro c hc
    rw [stripControlAndRemove, List.mem_filter] at hc
    have := hc.2
    simpa using this
  · intro c hc
    rw [stripControlAndRemove] at hc
    rcases hst : (u.data.dropWhile (fun c => c.toNat ≤ 0x20)).head? with _ | d
    · rw [List.head?_eq_none_iff] at hst
      rw [hst] at hc
      simp at hc
    · have hd : (fun c => decide (c.toNat ≤ 0x20)) d = false := by
        have := List.head?_dropWhile_not (fun c => decide (c.toNat ≤ 0x20)) u.data
        rw [hst] at this
        exact this
      have hdgt : 0x20 < d.toNat := by
        have : ¬d.toNat ≤ 0x20 := by simpa using hd
        omega
      have hdf : ¬(d = '\t' ∨ d = '\r' ∨ d = '\n') := by
        rintro (rfl | rfl | rfl) <;> exact absurd hdgt (by decide)
      have hkeep := head?_filter_keep
        (fun c => ¬(c = '\t' ∨ c = '\r' ∨ c = '\n')) _ d hst (by simpa using hdf)
      rw [hkeep] at hc
      cases hc
      exact hdgt

/-- A character list ends in its maximal slash-free suffix. -/
theorem lastSeg_decomp (l : List Char) :
    l = (l.reverse.dropWhile (fun c => c ≠ '/')).reverse ++
      (l.reverse.takeWhile (fun c => c ≠ '/')).reverse := by
  conv_lhs => rw [← List.reverse_reverse l,
    ← List.takeWhile_append_dropWhile (fun c => c ≠ '/') l.reverse]
  rw [List.reverse_append]

/-- The maximal slash-free suffix is a suffix. -/
theorem lastSeg_suffix (l : List Char) :
    (l.reverse.takeWhile (fun c => c ≠ '/')).reverse <:+ l := by
  have h := List.reverse_suffix.mpr (List.takeWhile_prefix (fun c => c ≠ '/')
    (l := l.reverse))
  rwa [List.reverse_reverse] at h

/-- Taking everything but a suffix, then the suffix, rebuilds the list. -/
theorem suffix_take_drop (l b : List Char) (h : b <:+ l) :
    l.take (l.length - b.length) ++ b = l ∧ l.drop (l.length - b.length) = b := by
  obtain ⟨a, rfl⟩ := h
  have hlen : (a ++ b).length - b.length = a.length := by
    rw [List.length_append]
    omega
  rw [hlen]
  exact ⟨by rw [List.take_left], List.drop_left a b⟩

/-- The path part of `splitParamsPath` is a prefix of the input. -/
theorem splitParamsPath_fst_prefix (l : List Char) :
    ∃ m, (splitParamsPath l).1 = l.take m := by
  by_cases hsemi : l.contains ';' = true
  · by_cases hsl : l.contains '/' = true
    · rcases hk : findCharIdx (fun c => c = ';')
          ((l.reverse.takeWhile (fun c => c ≠ '/')).reverse) with _ | k
      · refine ⟨l.length, ?_⟩
        simp only [splitParamsPath, if_pos hsemi, if_pos hsl, hk, List.take_length]
      · refine ⟨l.length -
          ((l.reverse.takeWhile (fun c => c ≠ '/')).reverse).length + k, ?_⟩
        simp only [splitParamsPath, if_pos hsemi, if_pos hsl, hk]
        rw [List.take_add,
          (suffix_take_drop l _ (lastSeg_suffix l)).2]
    · rcases hk : findCharIdx (fun c => c = ';') l with _ | i
      · exact ⟨l.length, by
          simp only [splitParamsPath, if_pos hsemi, if_neg hsl, hk, List.take_length]⟩
      · exact ⟨i, by simp only [splitParamsPath, if_pos hsemi, if_neg hsl, hk]⟩
  · exact ⟨l.length, by simp only [splitParamsPath, if_neg hsemi, List.take_length]⟩

/-- Lists without a semicolon have a semicolon-free last segment. -/
theorem no_semi_last_of_not_mem (P : List Char) (h : ';' ∉ P) :
    ';' ∉ P.reverse.takeWhile (fun c => c ≠ '/') := by
  intro hm
  have h1 : ';' ∈ P.reverse := (List.takeWhile_prefix _).subset hm
  rw [List.mem_reverse] at h1
  exact h h1

/-- The path part `splitParamsPath` returns always has a semicolon-free
last segment. -/
theorem splitParamsPath_fst_no_semi (l : List Char) :
    ';' ∉ ((splitParamsPath l).1).reverse.takeWhile (fun c => c ≠ '/') := by
  by_cases hsemi : l.contains ';' = true
  · by_cases hsl : l.contains '/' = true
    · rcases hk : findCharIdx (fun c => c = ';')
          ((l.reverse.takeWhile (fun c => c ≠ '/')).reverse) with _ | k
      · simp only [splitParamsPath, if_pos hsemi, if_pos hsl, hk]
        intro hm
        have h3 : ';' ∈ (l.reverse.takeWhile (fun c => c ≠ '/')).reverse := by
          rw [List.mem_reverse]
          exact hm
        have := (findCharIdx_eq_none _ _).mp hk ';' h3
        simp at this
      · simp only [splitParamsPath, if_pos hsemi, if_pos hsl, hk]
        have hall : ∀ c ∈ (((l.reverse.takeWhile (fun c => c ≠ '/')).reverse.take k)).reverse,
            decide (c ≠ '/') = true := by
          intro c hc
          rw [List.mem_reverse] at hc
          have h1 : c ∈ (l.reverse.takeWhile (fun c => c ≠ '/')).reverse :=
            List.take_subset k _ hc
          rw [List.mem_reverse] at h1
          have h2 := List.mem_takeWhile_imp h1
          exact h2
        rw [List.reverse_append, List.takeWhile_append_of_pos hall]
        have hpre_eq : l.take (l.length -
            ((l.reverse.takeWhile (fun c => c ≠ '/')).reverse).length) =
            (l.reverse.dropWhile (fun c => c ≠ '/')).reverse := by
          apply List.append_cancel_right
            ((suffix_take_drop l _ (lastSeg_suffix l)).1.trans (lastSeg_decomp l))
        have hdw : ((l.take (l.length -
            ((l.reverse.takeWhile (fun c => c ≠ '/')).reverse).length)).reverse).takeWhile
            (fun c => c ≠ '/') = [] := by
          rw [hpre_eq, List.reverse_reverse]
          apply takeWhile_nil_of_head
          intro c hc
          have := List.head?_dropWhile_not (fun c => decide (c ≠ '/')) l.reverse
          rw [hc] at this
          exact this
        rw [hdw, List.append_nil]
        intro hm
        rw [List.mem_reverse] at hm
        have h1 : ';' ∈ (l.reverse.takeWhile (fun c => c ≠ '/')).reverse.take k :=
          hm
        have := (findCharIdx_spec _ _ k hk).1 ';' h1
        simp at this
    · rcases hk : findCharIdx (fun c => c = ';') l with _ | i
      · simp only [splitParamsPath, if_pos hsemi, if_neg hsl, hk]
        intro hm
        have h1 : ';' ∈ l.reverse := (List.takeWhile_prefix _).subset hm
        rw [List.mem_reverse] at h1
        have := (findCharIdx_eq_none _ _).mp hk ';' h1
        simp at this
      · simp only [splitParamsPath, if_pos hsemi, if_neg hsl, hk]
        intro hm
        have h1 : ';' ∈ (l.take i).reverse := (List.takeWhile_prefix _).subset hm
        rw [List.mem_reverse] at h1
        have := (findCharIdx_spec _ _ i hk).1 ';' h1
        simp at this
  · simp only [splitParamsPath, if_neg hsemi]
    apply no_semi_last_of_not_mem
    intro hmem
    exact hsemi (by simpa using hmem)

/-- A semicolon-free last segment makes `splitParamsPath` the identity. -/
theorem splitParamsPath_eq_id (l : List Char)
    (h : ';' ∉ l.reverse.takeWhile (fun c => c ≠ '/')) :
    splitParamsPath l = (l, []) := by
  by_cases hsemi : l.contains ';' = true
  · by_cases hsl : l.contains '/' = true
    · have hnone : findCharIdx (fun c => c = ';')
          ((l.reverse.takeWhile (fun c => c ≠ '/')).reverse) = none := by
        apply (findCharIdx_eq_none _ _).mpr
        intro c hc
        rw [List.mem_reverse] at hc
        simp only [decide_eq_false_iff_not]
        rintro rfl
        exact h hc
      simp only [splitParamsPath, if_pos hsemi, if_pos hsl, hnone]
    · exfalso
      have hall : l.reverse.takeWhile (fun c => c ≠ '/') = l.reverse := by
        apply List.takeWhile_eq_self_iff.mpr
        intro c hc
        rw [List.mem_reverse] at hc
        simp only [decide_eq_true_eq]
        intro hcs
        subst hcs
        exact absurd hsl (by simpa using hc)
      rw [hall] at h
      have h1 : ';' ∈ l := by simpa using hsemi
      rw [← List.mem_reverse] at h1
      exact h h1
  · simp only [splitParamsPath, if_neg hsemi]

/-- The split invariants survive taking a path prefix. -/
theorem SplitInv_take (S N P : List Char) (inv : SplitInv S N P) (m : Nat) :
    SplitInv S N (P.take m) := by
  refine
    { scheme_ok := inv.scheme_ok
      netloc_delim := inv.netloc_delim
      netloc_brackets := inv.netloc_brackets
      netloc_clean := inv.netloc_clean
      path_clean := fun c hc => inv.path_clean c (List.take_subset m P hc)
      path_no_qf := fun c hc => inv.path_no_qf c (List.take_subset m P hc)
      netloc_path := ?_
      path_head := ?_
      path_scheme := ?_ }
  · intro hne
    rcases inv.netloc_path hne with hnil | hhd
    · left
      rw [hnil]
      simp
    · cases hP : P.take m with
      | nil => exact Or.inl rfl
      | cons c t =>
        right
        have hc0 : (P.take m).head? = some c := by
          rw [hP]
          rfl
        have hc1 := head?_take P m c hc0
        rw [hc1] at hhd
        have hc2 := Option.some.inj hhd
        rw [List.head?_cons, hc2]
  · intro hS hN c hc
    exact inv.path_head hS hN c (head?_take P m c hc)
  · intro hS hN
    have hnone := inv.path_scheme hS hN
    exact splitScheme_none_prefix _ (P.drop m)
      (by rw [List.take_append_drop]; exact hnone)

/-- Invariants of `urlparse` output: the split invariants hold, and for a
scheme using parameters the last path segment is semicolon-free. -/
theorem urlparseM_inv (u : String) (p : UrlParts) (h : urlparseM u = Except.ok p) :
    SplitInv p.scheme.data p.netloc.data p.path.data ∧
      (usesParams.contains p.scheme = true →
        ';' ∉ p.path.data.reverse.takeWhile (fun c => c ≠ '/')) := by
  rcases hs : urlsplitM u with e | t
  · simp [urlparseM, hs] at h
  · obtain ⟨S, N, P, Q, F⟩ := t
    have hinv := urlsplitM_inv u S N P Q F hs
    simp only [urlparseM, hs] at h
    split at h
    next hcond =>
      simp only [Except.ok.injEq] at h
      subst h
      constructor
      · show SplitInv S N (splitParamsPath P).1
        obtain ⟨m, hm⟩ := splitParamsPath_fst_prefix P
        rw [hm]
        exact SplitInv_take S N P hinv m
      · intro _
        exact splitParamsPath_fst_no_semi P
    next hcond =>
      simp only [Except.ok.injEq] at h
      subst h
      refine ⟨hinv, ?_⟩
      intro huse
      have hnb : ¬P.contains ';' = true := fun hb => hcond ⟨huse, hb⟩
      apply no_semi_last_of_not_mem
      intro hmem
      exact hnb (by simpa using hmem)

/-- UTF-8 encodings are nonempty. -/
theorem utf8EncodeChar_ne_nil (c : Char) : utf8EncodeChar c ≠ [] := by
  rw [utf8EncodeChar]
  split_ifs <;> simp

/-- Quoting one character yields at least one character. -/
theorem quotePlusChar_ne_nil (c : Char) : quotePlusChar c ≠ [] := by
  rw [quotePlusChar]
  split_ifs with h1 h2
  · simp
  · simp
  · rcases he : utf8EncodeChar c with _ | ⟨b, bs⟩
    · exact absurd he (utf8EncodeChar_ne_nil c)
    · rw [List.flatMap_cons]
      simp [pctEncodeByte]

/-- A non-empty string quotes to a non-empty character list. -/
theorem quote_plus_data_ne_nil (s : String) (h : s ≠ "") :
    (quote_plus s).data ≠ [] := by
  have hd : s.data ≠ [] := fun hnil => h (string_eq_empty_of_data_eq_nil hnil)
  rcases he : s.data with _ | ⟨c, t⟩
  · exact absurd he hd
  · show s.data.flatMap quotePlusChar ≠ []
    rw [he, List.flatMap_cons]
    intro hcontra
    exact quotePlusChar_ne_nil c (List.append_eq_nil.mp hcontra).1

/-- Character facts for the rebuilt `format=...&name=orig` query. -/
theorem norm_query_chars (fmt : String) :
    ∀ d ∈ ("format=" ++ quote_plus fmt ++ "&name=orig").data,
      (d ≠ '#' ∧ d ≠ ':') ∧ ¬(d = '\t' ∨ d = '\r' ∨ d = '\n') := by
  have hlit1 : ∀ d ∈ "format=".data,
      (d ≠ '#' ∧ d ≠ ':') ∧ ¬(d = '\t' ∨ d = '\r' ∨ d = '\n') := by decide
  have hlit2 : ∀ d ∈ "&name=orig".data,
      (d ≠ '#' ∧ d ≠ ':') ∧ ¬(d = '\t' ∨ d = '\r' ∨ d = '\n') := by decide
  intro d hd
  rw [String.data_append, String.data_append] at hd
  rcases List.mem_append.mp hd with hd | hd
  · rcases List.mem_append.mp hd with hd | hd
    · exact hlit1 d hd
    · have hq := quote_plus_char_facts fmt d hd
      exact ⟨⟨hq.2.1, hq.2.2.1⟩, hq.2.2.2.2⟩
  · exact hlit2 d hd

/-- The rebuilt query is nonempty. -/
theorem norm_query_ne_nil (fmt : String) :
    ("format=" ++ quote_plus fmt ++ "&name=orig").data ≠ [] := by
  rw [String.data_append, String.data_append]
  intro hcontra
  have h1 := List.append_eq_nil.mp hcontra
  have h2 := List.append_eq_nil.mp h1.1
  exact absurd h2.1 (by decide)

/-- Appending a nonempty list moves the last element into it. -/
theorem getLast?_append_of_ne_nil (A B : List Char) (hB : B ≠ []) :
    (A ++ B).getLast? = B.getLast? := by
  rw [List.getLast?_append]
  rcases hq : B.getLast? with _ | q
  · rw [List.getLast?_eq_none_iff] at hq
    exact absurd hq hB
  · rfl

/-- The rebuilt query ends in the printable letter `g`. -/
theorem norm_query_last (fmt : String) :
    ("format=" ++ quote_plus fmt ++ "&name=orig").data.getLast? = some 'g' := by
  rw [String.data_append, String.data_append,
    getLast?_append_of_ne_nil _ "&name=orig".data (by decide)]
  rfl

set_option maxHeartbeats 1600000 in
/-- Every character of an unsplit URL comes from one of its components or
is one of the four join characters. -/
theorem urlunsplitM_mem (S N P Q F : List Char) (c : Char)
    (hc : c ∈ urlunsplitM S N P Q F) :
    c ∈ S ∨ c ∈ N ∨ c ∈ P ∨ c ∈ Q ∨ c ∈ F ∨
      c = ':' ∨ c = '/' ∨ c = '?' ∨ c = '#' := by
  simp only [urlunsplitM] at hc
  split_ifs at hc <;>
    (try simp only [List.mem_append, List.mem_cons] at hc) <;>
    tauto

/-- Re-splitting the URL rebuilt by `normalize_media_url` when the parsed
netloc is non-empty: scheme, netloc and query return unchanged, the path
up to a possible leading slash, with no fragment; rebuilding from the
re-split path is stable and the last path segment is unchanged. -/
theorem normalize_reparse (S N P Q : List Char) (inv : SplitInv S N P)
    (hN : N ≠ [])
    (hQf : ∀ d ∈ Q, (d ≠ '#' ∧ d ≠ ':') ∧ ¬(d = '\t' ∨ d = '\r' ∨ d = '\n'))
    (hQne : Q ≠ []) :
    ∃ P2,
      urlsplitCore (stripControlAndRemove (urlunsplitM S N P Q [])) =
        Except.ok (S, N, P2, Q, []) ∧
      urlunsplitM S N P2 Q [] = urlunsplitM S N P Q [] ∧
      P2.reverse.takeWhile (fun c => c ≠ '/') =
        P.reverse.takeWhile (fun c => c ≠ '/') := by
  have hF : ¬(([] : List Char) ≠ []) := fun hx => hx rfl
  have hb : N ≠ [] ∨ (S ≠ [] ∧ usesNetloc.contains (String.mk S) = true ∧
      P.take 2 ≠ ['/', '/']) := Or.inl hN
  have hb2 : N ≠ [] ∨ (S ≠ [] ∧ usesNetloc.contains (String.mk S) = true ∧
      ('/' :: P).take 2 ≠ ['/', '/']) := Or.inl hN
  have hSclean : ∀ c ∈ S, ¬(c = '\t' ∨ c = '\r' ∨ c = '\n') := by
    intro c hcS
    rcases inv.scheme_ok with hnil | ⟨-, hall, -⟩
    · rw [hnil] at hcS
      simp at hcS
    · exact schemeChars_clean (hall c hcS)
  have hclean : ∀ c ∈ urlunsplitM S N P Q [], ¬(c = '\t' ∨ c = '\r' ∨ c = '\n') := by
    intro c hc
    rcases urlunsplitM_mem S N P Q [] c hc with
      h | h | h | h | h | rfl | rfl | rfl | rfl
    · exact hSclean c h
    · exact inv.netloc_clean c h
    · exact inv.path_clean c h
    · exact (hQf c h).2
    · simp at h
    · decide
    · decide
    · decide
    · decide
  have hQhash : ∀ d ∈ Q, d ≠ '#' := fun d hd => (hQf d hd).1.1
  by_cases hpre : P ≠ [] ∧ P.head? ≠ some '/'
  · -- a slash is prepended to the path
    have h1 : urlunsplitM S N P Q [] =
        (if S ≠ [] then S ++ ':' :: (('/' :: '/' :: N) ++ '/' :: P)
          else ('/' :: '/' :: N) ++ '/' :: P) ++ '?' :: Q := by
      simp only [urlunsplitM]
      rw [if_neg hF, if_pos hQne, if_pos hb, if_pos hpre]
    have hT : (if S ≠ [] then S ++ ':' :: (('/' :: '/' :: N) ++ '/' :: P)
          else ('/' :: '/' :: N) ++ '/' :: P) ++ '?' :: Q =
        (if S ≠ [] then S ++ ':' :: ('/' :: '/' :: (N ++ '/' :: P))
          else ('/' :: '/' :: (N ++ '/' :: P))) ++ '?' :: Q := by
      simp
    have hhead : ∀ c, (urlunsplitM S N P Q []).head? = some c → 0x20 < c.toNat := by
      intro c hc
      rw [h1] at hc
      rcases inv.scheme_ok with hnil | ⟨⟨c0, r, hS0, halpha⟩, -, -⟩
      · rw [if_neg (fun hx => hx hnil)] at hc
        simp only [List.cons_append, List.head?_cons, Option.some.injEq] at hc
        subst hc
        decide
      · rw [if_pos (by rw [hS0]; simp)] at hc
        rw [hS0] at hc
        simp only [List.cons_append, List.head?_cons, Option.some.injEq] at hc
        subst hc
        exact isAsciiAlpha_gt_space halpha
    have hPqf2 : ∀ c ∈ '/' :: P, c ≠ '?' ∧ c ≠ '#' := by
      intro c hc
      rcases List.mem_cons.mp hc with rfl | hc
      · exact ⟨by decide, by decide⟩
      · exact inv.path_no_qf c hc
    have hsplit := urlsplitCore_form_netloc S N ('/' :: P) Q inv.scheme_ok
      inv.netloc_delim inv.netloc_brackets (Or.inr rfl) hPqf2 hQhash
    refine ⟨'/' :: P, ?_, ?_, ?_⟩
    · rw [stripControlAndRemove_id _ hclean hhead, h1, hT]
      exact hsplit
    · have hpre2 : ¬(('/' :: P) ≠ [] ∧ ('/' :: P).head? ≠ some '/') := by simp
      have h1b : urlunsplitM S N ('/' :: P) Q [] =
          (if S ≠ [] then S ++ ':' :: (('/' :: '/' :: N) ++ '/' :: P)
            else ('/' :: '/' :: N) ++ '/' :: P) ++ '?' :: Q := by
        simp only [urlunsplitM]
        rw [if_neg hF, if_pos hQne, if_pos hb2, if_neg hpre2]
      rw [h1b, h1]
    · rw [show ('/' :: P).reverse = P.reverse ++ ['/'] from by simp]
      exact takeWhile_append_last_not _ _ '/' (by decide)
  · -- the path already fits after the netloc
    have hPhead : P = [] ∨ P.head? = some '/' := by
      by_cases hPn : P = []
      · exact Or.inl hPn
      · right
        by_contra hne
        exact hpre ⟨hPn, hne⟩
    have h1 : urlunsplitM S N P Q [] =
        (if S ≠ [] then S ++ ':' :: (('/' :: '/' :: N) ++ P)
          else ('/' :: '/' :: N) ++ P) ++ '?' :: Q := by
      simp only [urlunsplitM]
      rw [if_neg hF, if_pos hQne, if_pos hb, if_neg hpre]
    have hT : (if S ≠ [] then S ++ ':' :: (('/' :: '/' :: N) ++ P)
          else ('/' :: '/' :: N) ++ P) ++ '?' :: Q =
        (if S ≠ [] then S ++ ':' :: ('/' :: '/' :: (N ++ P))
          else ('/' :: '/' :: (N ++ P))) ++ '?' :: Q := by
      simp
    have hhead : ∀ c, (urlunsplitM S N P Q []).head? = some c → 0x20 < c.toNat := by
      intro c hc
      rw [h1] at hc
      rcases inv.scheme_ok with hnil | ⟨⟨c0, r, hS0, halpha⟩, -, -⟩
      · rw [if_neg (fun hx => hx hnil)] at hc
        simp only [List.cons_append, List.head?_cons, Option.some.injEq] at hc
        subst hc
        decide
      · rw [if_pos (by rw [hS0]; simp)] at hc
        rw [hS0] at hc
        simp only [List.cons_append, List.head?_cons, Option.some.injEq] at hc
        subst hc
        exact isAsciiAlpha_gt_space halpha
    have hsplit := urlsplitCore_form_netloc S N P Q inv.scheme_ok
      inv.netloc_delim inv.netloc_brackets hPhead inv.path_no_qf hQhash
    refine ⟨P, ?_, rfl, rfl⟩
    rw [stripControlAndRemove_id _ hclean hhead, h1, hT]
    exact hsplit

/-- Looking up `format` in the rebuilt query returns the quoted value. -/
theorem parseQsGetFirst_format (fmt : String) (h : fmt ≠ "") :
    parseQsGetFirst ("format=" ++ quote_plus fmt ++ "&name=orig") "format" = fmt := by
  have hunq : unquote_plus "format" = "format" := by decide
  have hsplitC : splitOnChar '&' "name=orig".data = ["name=orig".data] :=
    splitOnChar_no_sep '&' _ (by decide)
  have hsplitBC : splitOnChar '&' ('&' :: "name=orig".data) =
      [] :: ["name=orig".data] := by
    rw [splitOnChar_cons_sep, hsplitC]
  have hlitamp : ∀ c ∈ "format=".data, c ≠ '&' := by decide
  have hAB : ∀ c ∈ "format=".data ++ (quote_plus fmt).data, c ≠ '&' := by
    intro c hc
    rcases List.mem_append.mp hc with hc | hc
    · exact hlitamp c hc
    · exact (quote_plus_char_facts fmt c hc).1
  have hdata : ("format=" ++ quote_plus fmt ++ "&name=orig").data =
      ("format=".data ++ (quote_plus fmt).data) ++ '&' :: "name=orig".data := by
    rw [String.data_append, String.data_append]
  have hsplit : splitOnChar '&' ("format=" ++ quote_plus fmt ++ "&name=orig").data =
      (("format=".data ++ (quote_plus fmt).data) ++ []) :: ["name=orig".data] := by
    rw [hdata]
    exact splitOnChar_append_no_sep '&' _ _ _ _ hAB hsplitBC
  rw [List.append_nil] at hsplit
  have hfind : findCharIdx (fun c => c = '=')
      ("format=".data ++ (quote_plus fmt).data) = some 6 :=
    findCharIdx_append_left _ _ _ 6 (by decide)
  have hdrop : ("format=".data ++ (quote_plus fmt).data).drop (6 + 1) =
      (quote_plus fmt).data := by
    rw [show (6 + 1 : Nat) = ("format=".data).length from by decide]
    exact List.drop_left _ _
  have htake : ("format=".data ++ (quote_plus fmt).data).take 6 = "format".data := by
    rw [List.take_append_eq_append_take,
      show (6 : Nat) - ("format=".data).length = 0 from by decide,
      List.take_zero, List.append_nil]
    decide
  have hvalne : ((quote_plus fmt).data).isEmpty = false := by
    rcases hq : (quote_plus fmt).data with _ | ⟨c, t⟩
    · exact absurd hq (quote_plus_data_ne_nil fmt h)
    · rfl
  rw [parseQsGetFirst, parseQsPairs, hsplit, List.filterMap_cons]
  simp only [hfind, hdrop, htake, hvalne, string_mk_data, unquote_plus_quote_plus,
    hunq, Bool.false_eq_true, if_false]
  rw [List.filter_cons_of_pos (by rfl)]

/-- The chosen format value is never the empty string. -/
theorem normMediaFmt_ne_empty (p : UrlParts) : normMediaFmt p ≠ "" := by
  simp only [normMediaFmt]
  split_ifs with h1 h2
  · decide
  · exact h2
  · exact h1

/-- On parts whose query is exactly the rebuilt one, the format lookup
returns the same value. -/
theorem normMediaFmt_of_query (p : UrlParts) (fmt : String) (hf : fmt ≠ "")
    (hq : p.query = "format=" ++ quote_plus fmt ++ "&name=orig") :
    normMediaFmt p = fmt := by
  simp only [normMediaFmt, hq, parseQsGetFirst_format fmt hf]
  rw [if_neg hf]

/-- Shape of a successful `normalize_media_url`: the unsplit of the parsed
components with the rebuilt query. -/
theorem normalize_media_url_eq (u : String) (p : UrlParts)
    (hp : urlparseM u = Except.ok p) :
    normalize_media_url u = Except.ok (String.mk (urlunsplitM p.scheme.data
      p.netloc.data p.path.data
      ("format=" ++ quote_plus (normMediaFmt p) ++ "&name=orig").data [])) := by
  simp only [normalize_media_url, hp, normMediaFmt]

/-- Claim C10 (amended): `normalize_media_url` is idempotent on every URL
whose parse finds a non-empty network location (every well-formed
`http(s)://host/...` media URL) — re-normalizing the output re-parses the
same scheme, host and path, reads back the `format` query value written by
the first application, and rebuilds exactly the same URL with query
`format=<fmt>&name=orig` and no params or fragment.  Unrestricted
idempotence is false: with an empty netloc and a path starting `//` the
rebuilt URL re-reads that prefix as an empty authority (see the
counterexample). -/
theorem claim_C10_normalize_idempotent (u out : String) (p : UrlParts)
    (hp : urlparseM u = Except.ok p) (hN : p.netloc.data ≠ [])
    (h : normalize_media_url u = Except.ok out) :
    normalize_media_url out = Except.ok out := by
  have hshape := normalize_media_url_eq u p hp
  rw [hshape] at h
  simp only [Except.ok.injEq] at h
  subst h
  obtain ⟨inv, hsemi⟩ := urlparseM_inv u p hp
  have hfmt := normMediaFmt_ne_empty p
  obtain ⟨P2, hsplit2, hstable, hlastrun⟩ := normalize_reparse p.scheme.data
    p.netloc.data p.path.data
    ("format=" ++ quote_plus (normMediaFmt p) ++ "&name=orig").data inv hN
    (norm_query_chars (normMediaFmt p)) (norm_query_ne_nil (normMediaFmt p))
  have hsplitM : urlsplitM (String.mk (urlunsplitM p.scheme.data p.netloc.data
      p.path.data
      ("format=" ++ quote_plus (normMediaFmt p) ++ "&name=orig").data [])) =
      Except.ok (p.scheme.data, p.netloc.data, P2,
        ("format=" ++ quote_plus (normMediaFmt p) ++ "&name=orig").data, []) := by
    rw [urlsplitM]
    exact hsplit2
  have hparse2 : ∃ prm, urlparseM (String.mk (urlunsplitM p.scheme.data
      p.netloc.data p.path.data
      ("format=" ++ quote_plus (normMediaFmt p) ++ "&name=orig").data [])) =
      Except.ok ⟨String.mk p.scheme.data, String.mk p.netloc.data, String.mk P2,
        prm, String.mk ("format=" ++ quote_plus (normMediaFmt p) ++
          "&name=orig").data, String.mk []⟩ := by
    simp only [urlparseM, hsplitM]
    by_cases hcond : usesParams.contains (String.mk p.scheme.data) = true ∧
        P2.contains ';' = true
    · have huse := hcond.1
      rw [string_mk_data] at huse
      have hid := splitParamsPath_eq_id P2 (by
        rw [hlastrun]
        exact hsemi huse)
      refine ⟨"", ?_⟩
      rw [if_pos hcond]
      simp only [hid]
    · refine ⟨"", ?_⟩
      rw [if_neg hcond]
  obtain ⟨prm, hparse2'⟩ := hparse2
  have hshape2 := normalize_media_url_eq _ _ hparse2'
  rw [hshape2]
  have hfmt2 : normMediaFmt (⟨String.mk p.scheme.data, String.mk p.netloc.data,
      String.mk P2, prm, String.mk ("format=" ++ quote_plus (normMediaFmt p) ++
        "&name=orig").data, String.mk []⟩ : UrlParts) = normMediaFmt p := by
    apply normMediaFmt_of_query _ _ hfmt
    exact string_mk_data _
  rw [hfmt2]
  exact congrArg (fun l => Except.ok (String.mk l)) hstable

/-- Counterexample for C10 as stated: `normalize_media_url` is not
idempotent on every URL.  On `////` (empty netloc, parsed path `//`) the
first normalization yields `//?format=jpg&name=orig`; its leading `//` is
re-read as an empty authority by the second parse, which therefore
rebuilds a different URL. -/
theorem claim_C10_counterexample :
    normalize_media_url "////" = Except.ok "//?format=jpg&name=orig" ∧
    normalize_media_url "//?format=jpg&name=orig" =
      Except.ok "?format=jpg&name=orig" ∧
    ("//?format=jpg&name=orig" : String) ≠ "?format=jpg&name=orig" :=
  ⟨by rfl, by rfl, by decide⟩

/-- Witness for C10: the sample media URL parses with netloc
`pbs.twimg.com`, and re-normalizing its normalization returns it
unchanged. -/
theorem claim_C10_witness :
    normalize_media_url "https://pbs.twimg.com/media/abc.jpg?format=jpg&name=orig" =
      Except.ok "https://pbs.twimg.com/media/abc.jpg?format=jpg&name=orig" :=
  claim_C10_normalize_idempotent "https://pbs.twimg.com/media/abc.jpg?name=small" _
    ⟨"https", "pbs.twimg.com", "/media/abc.jpg", "", "name=small", ""⟩
    (by rfl) (by decide) (by rfl)

end Xmag
